import Mathlib

/-!
Verification of the drizzlepac pipeline_poller_utils module.

The Python source (drizzlepac/hlautils/pipeline_poller_utils.py) is shallowly
embedded below.  Python strings are modelled as Lean String (lists of
characters), Python lists as Lean List, Python dicts (which preserve insertion
order) as association lists with an insert-or-overwrite operation, and Python
exceptions as an Except monad with one constructor per exception type that the
code can raise.
-/

/-- Python exception kinds raised by the embedded code: KeyError from the
instrument-dictionary lookup, IndexError from list indexing, and NameError from
referencing the undefined generator variable in run_generator. -/
inductive PyErr where
  | keyError : PyErr
  | indexError : PyErr
  | nameError : PyErr
deriving Repr, DecidableEq

/-- Split a character list at every occurrence of the separator, keeping empty
pieces, like the Python str.split with an explicit separator argument. -/
def splitOnChar (sep : Char) : List Char → List (List Char)
  | [] => [[]]
  | c :: rest =>
    let r := splitOnChar sep rest
    if c = sep then [] :: r
    else
      match r with
      | [] => [[c]]
      | w :: ws => (c :: w) :: ws

/-- Characters treated as whitespace by the Python str.split() with no
arguments. -/
def pyIsWs (c : Char) : Bool :=
  c = ' ' || c = '\t' || c = '\n' || c = '\r' || c = '\x0b' || c = '\x0c'

/-- Split a character list at every whitespace character, keeping empty
pieces. -/
def splitOnWsChar : List Char → List (List Char)
  | [] => [[]]
  | c :: rest =>
    let r := splitOnWsChar rest
    if pyIsWs c then [] :: r
    else
      match r with
      | [] => [[c]]
      | w :: ws => (c :: w) :: ws

/-- Python str.split() with no arguments: split on whitespace runs and drop
the empty pieces. -/
def pySplit (s : String) : List String :=
  ((splitOnWsChar s.data).filter (fun w => !w.isEmpty)).map (fun w => ⟨w⟩)

/-- Python str.split with a single-space separator, keeping empty pieces. -/
def pySplitSpace (s : String) : List String :=
  (splitOnChar ' ' s.data).map (fun w => ⟨w⟩)

/-- Python str.split with a semicolon separator, keeping empty pieces. -/
def pySplitSemi (s : String) : List String :=
  (splitOnChar ';' s.data).map (fun w => ⟨w⟩)

/-- Python sep.join of a list of strings. -/
def joinWith (sep : String) : List String → String
  | [] => ""
  | [s] => s
  | s :: r :: rest => s ++ sep ++ joinWith sep (r :: rest)

/-- Python str.lower restricted to ASCII, applied characterwise; the strings
handled by this module are ASCII.  Char.toLower is the Lean core ASCII
lowercasing function. -/
def pyLower (s : String) : String :=
  ⟨s.data.map Char.toLower⟩

/-- Python str.upper restricted to ASCII, applied characterwise. -/
def pyUpper (s : String) : String :=
  ⟨s.data.map Char.toUpper⟩

/-- Python slice s[a:b] for nonnegative bounds: characters from index a up to
but excluding index b, clamped to the string, never raising. -/
def pySlice (s : String) (a b : Nat) : String :=
  ⟨(s.data.drop a).take (b - a)⟩

/-- Python slice s[:i] where i is the (possibly negative) result of str.find:
a negative i counts from the end of the string, clamping at zero. -/
def pySliceTo (s : String) (i : Int) : String :=
  if i < 0 then ⟨s.data.take (s.data.length + i).toNat⟩
  else ⟨s.data.take i.toNat⟩

/-- Python str.find for a single character: index of the first occurrence, or
-1 when the character does not occur. -/
def pyFindChar (s : String) (c : Char) : Int :=
  match s.data.findIdx? (fun x => x = c) with
  | some i => (i : Int)
  | none => -1

/-- Python str.endswith as a boolean on character data. -/
def strEndsWith (s suf : String) : Bool :=
  suf.data.isSuffixOf s.data

/-- Python str.startswith as a boolean on character data. -/
def strStartsWith (s pre : String) : Bool :=
  pre.data.isPrefixOf s.data

/-- Containment of a character list as a contiguous segment of another,
tested positionally. -/
def segIn (sub : List Char) : List Char → Bool
  | [] => sub.isEmpty
  | c :: rest => sub.isPrefixOf (c :: rest) || segIn sub rest

/-- Python substring containment, the operator in of Python on strings, as a
boolean on character data. -/
def strContains (s sub : String) : Bool :=
  segIn sub.data s.data

/-- Python list indexing with a nonnegative index, raising IndexError when the
index is out of range. -/
def pyIdx (l : List String) (i : Nat) : Except PyErr String :=
  match l[i]? with
  | some x => Except.ok x
  | none => Except.error PyErr.indexError

/-- Python list indexing at -1 (the last element), raising IndexError on an
empty list. -/
def pyLast (l : List String) : Except PyErr String :=
  match l.getLast? with
  | some x => Except.ok x
  | none => Except.error PyErr.indexError

/-- Decimal digits of a natural number, most significant first, computed with
explicit fuel so that the definition is structurally recursive and evaluates
inside the kernel. -/
def decAux : Nat → Nat → List Char
  | 0, _ => []
  | fuel + 1, n =>
    if n < 10 then [Nat.digitChar n]
    else decAux fuel (n / 10) ++ [Nat.digitChar (n % 10)]

/-- Decimal representation of a natural number, as produced by the Python str
builtin on a nonnegative int. -/
def natToDec (n : Nat) : String :=
  ⟨decAux (n + 1) n⟩

/-- Python format specifier 02d: the decimal representation left padded with
zeros to a minimum width of two characters. -/
def format02 (n : Nat) : String :=
  if n < 10 then "0" ++ natToDec n else natToDec n

-- ### Embedding of determine_filter_name (pipeline_poller_utils.py lines 354-400)

/-- Embedding of determine_filter_name: lowercase the raw filter string, split
on semicolons, drop sub-filters containing the substring clear, return the
literal clear when nothing remains, otherwise reverse the list when the first
remaining sub-filter starts with pol and join the remainder with hyphens. -/
def determine_filter_name (raw_filter : String) : String :=
  let raw := pyLower raw_filter
  let filter_list := pySplitSemi raw
  let output_filter_list := filter_list.filter (fun filt => !strContains filt "clear")
  match output_filter_list with
  | [] => "clear"
  | f :: rest =>
    let out := if strStartsWith f "pol" then (f :: rest).reverse else f :: rest
    joinWith "-" out

-- ### Data model for the product dictionary (ordered like a Python dict)

/-- One product entry of the output dictionary: the descriptive info string and
the ordered list of constituent exposure filenames. -/
structure Entry where
  info : String
  files : List String
deriving Repr, DecidableEq

/-- The output dictionary, an insertion-ordered association list from product
identifier to entry, mirroring a Python dict. -/
abbrev Products := List (String × Entry)

/-- Python dict assignment d[k] = v: overwrite in place when the key is
present, append at the end otherwise. -/
def dictSet (d : Products) (k : String) (v : Entry) : Products :=
  if d.any (fun p => p.1 == k) then
    d.map (fun p => if p.1 == k then (k, v) else p)
  else d ++ [(k, v)]

/-- Python dict read d[k] on a key known to be present; the default is never
reached on the states produced by the parser, where the key has always just
been inserted. -/
def dictGetD (d : Products) (k : String) : Entry :=
  match d.find? (fun p => p.1 == k) with
  | some p => p.2
  | none => ⟨"", []⟩

-- ### Embedding of the module constants (pipeline_poller_utils.py lines 13-18)

/-- Format string SEP_STR, single exposure product with a 02d index. -/
def SEP_STR (n : Nat) : String :=
  "single exposure product " ++ format02 n

/-- Format string FP_STR, filter product with a 02d index. -/
def FP_STR (n : Nat) : String :=
  "filter product " ++ format02 n

/-- Format string TDP_STR, total detection product with a 02d index. -/
def TDP_STR (n : Nat) : String :=
  "total detection product " ++ format02 n

/-- The INSTRUMENT_DICT constant mapping the first filename character to the
instrument name. -/
def INSTRUMENT_DICT : List (Char × String) :=
  [('i', "WFC3"), ('j', "ACS"), ('o', "STIS"), ('u', "WFPC2"), ('x', "FOC"), ('w', "WFPC")]

-- ### Embedding of parse_obset_tree (pipeline_poller_utils.py lines 103-171)

/-- A leaf of the grouping structure: the ordered (info string, filename)
pairs of one detector and filter combination. -/
abbrev Leaf := List (String × String)

/-- The mutable loop state of parse_obset_tree: the products dict built so
far and the five loop variables. -/
structure PState where
  products : Products
  prev_det_indx : Nat
  det_indx : Nat
  filt_indx : Nat
  sep_indx : Nat
  filetype : String
deriving Repr, DecidableEq

/-- The filetype detection of parse_obset_tree lines 146-148: drz when
characters 10 to 13 of the filename lowercased end with flt, drc otherwise. -/
def detectFT (fname : String) : String :=
  if strEndsWith (pyLower (pySlice fname 10 13)) "flt" then "drz" else "drc"

/-- Drop the last two elements of a list, the Python slice l[:-2]. -/
def dropLast2 (l : List String) : List String :=
  l.dropLast.dropLast

/-- Body of the innermost loop of parse_obset_tree (lines 143-168), processing
one (info, filename) pair: run the filetype detection when the detector index
changed, insert the single exposure entry, then update the filter product and
total detection product entries in place.  The detection branch of lines
145-149 assigns filetype and sets prev_det_indx to det_indx only when the two
indexes differ; writing the update unconditionally is equivalent, because when
the indexes agree both assignments are the identity. -/
def parseExposure (tdp fprod : String) (st : PState) (e : String × String) :
    Except PyErr PState := do
  let newft := if st.det_indx ≠ st.prev_det_indx then detectFT e.2 else st.filetype
  let st := { st with filetype := newft, prev_det_indx := st.det_indx }
  let ps := dictSet st.products (SEP_STR st.sep_indx)
    ⟨pyLower (e.1 ++ " " ++ st.filetype), [e.2]⟩
  let ef := dictGetD ps fprod
  let ef :=
    if ef.info = "" then
      { ef with info := pyLower (joinWith " " (pySplit e.1) ++ " " ++ st.filetype) }
    else ef
  let ef := { ef with files := ef.files ++ [e.2] }
  let ps := dictSet ps fprod ef
  let et := dictGetD ps tdp
  let et ←
    if et.info = "" then do
      let lastTok ← pyLast (pySplit e.1)
      let tdpInfoStr := pyLower (joinWith " " (dropLast2 (pySplit e.1)) ++ " " ++ lastTok ++ " " ++ st.filetype)
      pure { et with info := tdpInfoStr }
    else pure et
  let et := { et with files := et.files ++ [e.2] }
  let ps := dictSet ps tdp et
  Except.ok { st with products := ps, sep_indx := st.sep_indx + 1 }

/-- The innermost loop of parse_obset_tree over the exposures of one filter. -/
def parseExposures (tdp fprod : String) (st : PState) : Leaf → Except PyErr PState
  | [] => Except.ok st
  | e :: rest => do
    let st ← parseExposure tdp fprod st e
    parseExposures tdp fprod st rest

/-- The middle loop of parse_obset_tree (lines 137-141) over the filters of
one detector: allocate the filter product entry, then process its exposures. -/
def parseFilters (tdp : String) (st : PState) : List Leaf → Except PyErr PState
  | [] => Except.ok st
  | leaf :: rest => do
    let fprod := FP_STR st.filt_indx
    let st := { st with
      products := dictSet st.products fprod ⟨"", []⟩,
      filt_indx := st.filt_indx + 1 }
    let st ← parseExposures tdp fprod st leaf
    parseFilters tdp st rest

/-- The outer loop of parse_obset_tree (lines 132-135) over the detectors:
allocate the total detection product entry, increment the detector index, then
process the filters. -/
def parseDetectors (st : PState) : List (List Leaf) → Except PyErr PState
  | [] => Except.ok st
  | ftree :: rest => do
    let tdp := TDP_STR st.det_indx
    let st := { st with
      products := dictSet st.products tdp ⟨"", []⟩,
      det_indx := st.det_indx + 1 }
    let st ← parseFilters tdp st ftree
    parseDetectors st rest

/-- Embedding of parse_obset_tree: the input is the grouping structure with
its keys erased (the Python code only iterates over dict values), the output
the flat ordered product dictionary.  All counters start at zero and the
filetype starts as the empty string. -/
def parse_obset_tree (det_tree : List (List Leaf)) : Except PyErr Products := do
  let st ← parseDetectors ⟨[], 0, 0, 0, 0, ""⟩ det_tree
  Except.ok st.products

-- ### Embedding of the filename generators (lines 218-350)

/-- Embedding of single_exposure_product_filename_generator: one image
filename built from the first seven fields, the sixth truncated to eight
characters. -/
def single_exposure_product_filename_generator (obs_info : List String) :
    Except PyErr (List (String × String)) := do
  let f5 ← pyIdx obs_info 5
  let f6 ← pyIdx obs_info 6
  let basename := "hst_" ++ joinWith "_" (obs_info.take 5) ++ "_" ++ pySlice f5 0 8 ++ "_" ++ f6
  Except.ok [("image", basename ++ ".fits")]

/-- Embedding of filter_product_filename_generator: image plus the two
catalog filenames sharing the basename without the filetype suffix. -/
def filter_product_filename_generator (obs_info : List String) :
    Except PyErr (List (String × String)) := do
  let f5 ← pyIdx obs_info 5
  let f6 ← pyIdx obs_info 6
  let basename := "hst_" ++ joinWith "_" (obs_info.take 5) ++ "_" ++ pySlice f5 0 6
  Except.ok [("image", basename ++ "_" ++ f6 ++ ".fits"),
             ("point source catalog", basename ++ "_point-cat.ecsv"),
             ("segment source catalog", basename ++ "_segment-cat.ecsv")]

/-- Embedding of total_detection_product_filename_generator. -/
def total_detection_product_filename_generator (obs_info : List String) :
    Except PyErr (List (String × String)) := do
  let f4 ← pyIdx obs_info 4
  let f5 ← pyIdx obs_info 5
  let basename := "hst_" ++ joinWith "_" (obs_info.take 4) ++ "_total_" ++ pySlice f4 0 6
  Except.ok [("image", basename ++ "_" ++ f5 ++ ".fits"),
             ("point source catalog", basename ++ "_point-cat.ecsv"),
             ("segment source catalog", basename ++ "_segment-cat.ecsv")]

/-- Embedding of multivisit_mosaic_product_filename_generator, exactly as the
source computes it: the basename joins the first four fields, and the image
filename appends the element at index five of obs_info after a literal space;
the source docstring instead documents five input fields with the filetype at
index four. -/
def multivisit_mosaic_product_filename_generator (obs_info : List String) :
    Except PyErr (List (String × String)) := do
  let basename := "hst_mos" ++ joinWith "_" (obs_info.take 4)
  let f5 ← pyIdx obs_info 5
  Except.ok [("image", basename ++ " " ++ f5 ++ ".fits"),
             ("point source catalog", basename ++ "_point-cat.ecsv"),
             ("segment source catalog", basename ++ "_segment-cat.ecsv")]

-- ### Embedding of run_generator (lines 173-215)

/-- The category to generator mapping of run_generator, in the insertion
order of the Python dict literal. -/
def category_generator_mapping :
    List (String × (List String → Except PyErr (List (String × String)))) :=
  [("single exposure product", single_exposure_product_filename_generator),
   ("filter product", filter_product_filename_generator),
   ("total detection product", total_detection_product_filename_generator),
   ("multivisit mosaic product", multivisit_mosaic_product_filename_generator)]

/-- The linear scan of run_generator lines 199-203: the first registered
category phrase that is a prefix of the input category, with its generator. -/
def findCategory (product_category : String) :
    Option (String × (List String → Except PyErr (List (String × String)))) :=
  category_generator_mapping.find? (fun p => strStartsWith product_category p.1)

/-- Left pad a string with zeros to five characters, the padding expression
of run_generator line 211. -/
def pad5 (s : String) : String :=
  ⟨List.replicate (5 - s.length) '0' ++ s.data⟩

/-- Embedding of run_generator: find the generator by prefix scan, split the
info string on single spaces, pad the first field to five characters unless
the matched category is the multivisit mosaic product, then run the generator.
When no category phrase matches, the Python code falls through to calling the
never-assigned local variable generator_name, raising NameError; the padding
still happens first because the empty category_key is not the multivisit
phrase. -/
def run_generator (product_category : String) (obs_info : String) :
    Except PyErr (List (String × String)) :=
  let found := findCategory product_category
  let category_key := match found with
    | some p => p.1
    | none => ""
  let fields := pySplitSpace obs_info
  let fields :=
    if category_key ≠ "multivisit mosaic product" then
      match fields with
      | [] => []
      | f :: rest => pad5 f :: rest
    else fields
  match found with
  | some p => p.2 fields
  | none => Except.error PyErr.nameError

-- ### Embedding of create_row_info and build_obset_tree (lines 65-101)

/-- One row of the input manifest after table parsing, with the instrument
column value that interpret_obset_input adds to every row. -/
structure InputRow where
  filename : String
  proposal_id : Nat
  program_id : String
  obset_id : Nat
  exptime : String
  filters : String
  detector : String
  pathname : String
deriving Repr, DecidableEq

/-- Embedding of create_row_info: upper-case and space-join the proposal id,
the 02d obset id, the instrument, the detector, the (already normalized)
filters value, and the filename truncated at the result of find underscore,
which drops the last character when no underscore occurs. -/
def create_row_info (row : InputRow) (instrument : String) : String × String :=
  let info_list := [natToDec row.proposal_id, format02 row.obset_id, instrument,
                    row.detector, row.filters, pySliceTo row.filename (pyFindChar row.filename '_')]
  (joinWith " " (info_list.map pyUpper), row.filename)

/-- The keyed grouping structure built by build_obset_tree: detector to
filter to leaf, all levels insertion ordered. -/
abbrev DetTree := List (String × List (String × Leaf))

/-- Insert into the filter level of one detector node: append the pair to an
existing leaf for the filter, or create the leaf at the end. -/
def treeInsertFilt (fnode : List (String × Leaf)) (filt : String) (p : String × String) :
    List (String × Leaf) :=
  match fnode with
  | [] => [(filt, [p])]
  | (f, leaf) :: rest =>
    if f = filt then (f, leaf ++ [p]) :: rest
    else (f, leaf) :: treeInsertFilt rest filt p

/-- Insert one (info, filename) pair under its detector and filter keys,
creating either level at the end on first encounter, as in lines 85-93. -/
def treeInsert (t : DetTree) (det filt : String) (p : String × String) : DetTree :=
  match t with
  | [] => [(det, [(filt, [p])])]
  | (d, fnode) :: rest =>
    if d = det then
      (d, treeInsertFilt fnode filt p) :: rest
    else (d, fnode) :: treeInsert rest det filt p

/-- Embedding of build_obset_tree: for each row in manifest order, normalize
its filters value with determine_filter_name, build the row info with
create_row_info, and insert the pair under detector then filter. -/
def build_obset_tree (rows : List InputRow) (instrument : String) : DetTree :=
  rows.foldl
    (fun t row =>
      let filt := determine_filter_name row.filters
      let row := { row with filters := filt }
      treeInsert t row.detector filt (create_row_info row instrument))
    []

/-- Erase the keys of the grouping structure, keeping the ordered values, as
consumed by parse_obset_tree. -/
def treeValues (t : DetTree) : List (List Leaf) :=
  t.map (fun d => d.2.map (fun f => f.2))

-- ### Embedding of interpret_obset_input (lines 22-62)

/-- Look up the instrument for a first filename character, the
INSTRUMENT_DICT subscript of line 54, raising KeyError on a miss. -/
def instrumentLookup (c : Char) : Except PyErr String :=
  match INSTRUMENT_DICT.find? (fun p => p.1 == c) with
  | some p => Except.ok p.2
  | none => Except.error PyErr.keyError

/-- Embedding of interpret_obset_input on an already parsed table: derive the
instrument from the first character of the first filename (IndexError on an
empty table or empty filename, KeyError on an unknown character), build the
grouping structure, and parse it into the product dictionary. -/
def interpret_obset_input (rows : List InputRow) : Except PyErr Products := do
  match rows with
  | [] => Except.error PyErr.indexError
  | r0 :: _ =>
    match r0.filename.data with
    | [] => Except.error PyErr.indexError
    | c :: _ => do
      let instr ← instrumentLookup c
      parse_obset_tree (treeValues (build_obset_tree rows instr))

-- ### Helper lemmas about the Python string primitives

theorem pySliceTo_neg_one (s : String) : pySliceTo s (-1) = ⟨s.data.dropLast⟩ := by
  simp only [pySliceTo, if_pos (by omega : (-1 : Int) < 0)]
  congr 1
  rw [List.dropLast_eq_take]
  congr 1
  omega

theorem pyFindChar_eq_neg_one (s : String) (c : Char) (h : c ∉ s.data) :
    pyFindChar s c = -1 := by
  unfold pyFindChar
  rw [List.findIdx?_eq_none_iff.mpr]
  intro x hx
  simp only [decide_eq_false_iff_not]
  intro hxc
  exact h (hxc ▸ hx)

theorem findIdx_take_eq_takeWhile (c : Char) :
    ∀ l : List Char, c ∈ l →
      ∃ i, l.findIdx? (fun x => x = c) = some i ∧
        l.take i = l.takeWhile (fun x => x ≠ c) := by
  intro l hl
  induction l with
  | nil => cases hl
  | cons a t ih =>
    by_cases hac : a = c
    · refine ⟨0, ?_, ?_⟩
      · simp [List.findIdx?_cons, hac]
      · simp [List.takeWhile_cons, hac]
    · have hct : c ∈ t := by
        cases hl with
        | head => exact absurd rfl hac
        | tail _ h => exact h
      obtain ⟨i, hfind, htake⟩ := ih hct
      refine ⟨i + 1, ?_, ?_⟩
      · simp [List.findIdx?_cons, hac, List.findIdx?_succ, hfind]
      · simp [List.takeWhile_cons, hac, htake]

-- ### Claim C7: concrete filter normalization values

/-- Claim C7: determine_filter_name maps F110W;CLEAR2L to f110w, value
CLEAR1L;CLEAR2L to clear, F606W;POL60 to f606w-pol60, and POL60;F606W to
f606w-pol60, the polarizer name always placed second. -/
theorem determine_filter_name_concrete_values :
    determine_filter_name "F110W;CLEAR2L" = "f110w" ∧
    determine_filter_name "CLEAR1L;CLEAR2L" = "clear" ∧
    determine_filter_name "F606W;POL60" = "f606w-pol60" ∧
    determine_filter_name "POL60;F606W" = "f606w-pol60" := by
  refine ⟨by decide, by decide, by decide, by decide⟩

-- ### Claim C1: the multivisit mosaic generator on a five-field input

/-- Claim C1 (code bug witness): on the five-field input documented by the
source docstring (group id, instrument, detector, filter, filetype) the
multivisit mosaic generator raises IndexError, because line 346 of the source
reads obs_info[5] while its own docstring assigns the filetype to obs_info[4];
it never returns the documented mapping. -/
theorem multivisit_mosaic_five_fields_index_error :
    multivisit_mosaic_product_filename_generator ["0001", "wfc3", "ir", "f110w", "drz"] =
      Except.error PyErr.indexError := rfl

-- ### Claim C10: create_row_info truncation of the filename field

/-- Claim C10: the last field of the info string built by create_row_info is
the filename truncated at its first underscore when an underscore occurs, and
the filename with its final character removed when no underscore occurs, since
str.find returns -1 and the slice then drops the last character. -/
theorem create_row_info_filename_field (row : InputRow) (instrument : String) :
    ('_' ∉ row.filename.data →
      (create_row_info row instrument).1 =
        joinWith " " ([natToDec row.proposal_id, format02 row.obset_id, instrument,
          row.detector, row.filters, ⟨row.filename.data.dropLast⟩].map pyUpper)) ∧
    ('_' ∈ row.filename.data →
      (create_row_info row instrument).1 =
        joinWith " " ([natToDec row.proposal_id, format02 row.obset_id, instrument,
          row.detector, row.filters,
          ⟨row.filename.data.takeWhile (fun c => c ≠ '_')⟩].map pyUpper)) := by
  constructor
  · intro h
    unfold create_row_info
    rw [pyFindChar_eq_neg_one _ _ h, pySliceTo_neg_one]
  · intro h
    unfold create_row_info
    obtain ⟨i, hfind, htake⟩ := findIdx_take_eq_takeWhile '_' row.filename.data h
    simp only [pyFindChar, hfind, pySliceTo]
    rw [if_neg (by omega), Int.toNat_natCast, htake]

/-- Witness for claim C10 at concrete rows, one without and one with an
underscore in the filename. -/
theorem create_row_info_filename_field_witness :
    (create_row_info ⟨"nounderscore", 123, "A", 7, "1.0", "f110w", "IR", "/x"⟩ "WFC3").1 =
      joinWith " " ([natToDec 123, format02 7, "WFC3", "IR", "f110w",
        ⟨("nounderscore" : String).data.dropLast⟩].map pyUpper) ∧
    (create_row_info ⟨"ia1s70jtq_flt.fits", 11150, "A1S", 70, "1.0", "f110w", "IR", "/x"⟩ "WFC3").1 =
      joinWith " " ([natToDec 11150, format02 70, "WFC3", "IR", "f110w",
        ⟨("ia1s70jtq_flt.fits" : String).data.takeWhile (fun c => c ≠ '_')⟩].map pyUpper) :=
  ⟨(create_row_info_filename_field ⟨"nounderscore", 123, "A", 7, "1.0", "f110w", "IR", "/x"⟩ "WFC3").1
      (by decide),
   (create_row_info_filename_field ⟨"ia1s70jtq_flt.fits", 11150, "A1S", 70, "1.0", "f110w", "IR", "/x"⟩ "WFC3").2
      (by decide)⟩

-- ### Claim C3: unrecognized category in run_generator

/-- Claim C3: whenever none of the four registered category phrases is a
prefix of the input category, run_generator fails with the error of the
undefined generator reference and never returns a mapping. -/
theorem run_generator_unrecognized_category (product_category obs_info : String)
    (h1 : strStartsWith product_category "single exposure product" = false)
    (h2 : strStartsWith product_category "filter product" = false)
    (h3 : strStartsWith product_category "total detection product" = false)
    (h4 : strStartsWith product_category "multivisit mosaic product" = false) :
    run_generator product_category obs_info = Except.error PyErr.nameError := by
  unfold run_generator findCategory category_generator_mapping
  simp [List.find?, h1, h2, h3, h4]

/-- Witness for claim C3 at the concrete unrecognized category bogus
product 00. -/
theorem run_generator_unrecognized_category_witness :
    run_generator "bogus product 00" "11150 70 WFC3 IR F110W IA1S70JTQ drz" =
      Except.error PyErr.nameError :=
  run_generator_unrecognized_category _ _ (by decide) (by decide) (by decide) (by decide)

-- ### Claim C4: unrecognized instrument in interpret_obset_input

/-- Claim C4: when the first character of the first filename of the manifest
is not one of the six instrument keys, interpret_obset_input fails with the
KeyError of the instrument dictionary lookup, a condition distinct from the
other error kinds, and returns no product mapping. -/
theorem interpret_obset_input_unrecognized_instrument
    (r0 : InputRow) (rest : List InputRow) (c : Char) (ctail : List Char)
    (hname : r0.filename.data = c :: ctail)
    (hc : c ∉ (['i', 'j', 'o', 'u', 'x', 'w'] : List Char)) :
    interpret_obset_input (r0 :: rest) = Except.error PyErr.keyError := by
  simp only [List.mem_cons, List.mem_singleton, not_or] at hc
  obtain ⟨hi, hj, ho, hu, hx, hw⟩ := hc
  have hne : ∀ d : Char, ¬c = d → (d == c) = false := fun d hd =>
    beq_eq_false_iff_ne.mpr (fun h => hd h.symm)
  have hlook : instrumentLookup c = Except.error PyErr.keyError := by
    unfold instrumentLookup INSTRUMENT_DICT
    simp [List.find?, hne 'i' hi, hne 'j' hj, hne 'o' ho, hne 'u' hu,
      hne 'x' hx, hne 'w' hw.1]
  unfold interpret_obset_input
  simp only [hname, hlook]
  rfl

/-- Witness for claim C4 at a concrete manifest whose first filename starts
with the letter z. -/
theorem interpret_obset_input_unrecognized_instrument_witness :
    interpret_obset_input [⟨"za1s70jtq_flt.fits", 11150, "A1S", 70, "1.0", "F110W", "IR", "/x"⟩] =
      Except.error PyErr.keyError :=
  interpret_obset_input_unrecognized_instrument _ [] 'z' _ rfl (by decide)

-- ### Claim C9: proposal id padding in run_generator

theorem splitOnChar_not_mem (sep : Char) (l : List Char) (h : sep ∉ l) :
    splitOnChar sep l = [l] := by
  induction l with
  | nil => rfl
  | cons c rest ih =>
    have hc : ¬c = sep := fun hcs => h (hcs ▸ List.mem_cons_self c rest)
    have hrest : sep ∉ rest := fun hr => h (List.mem_cons_of_mem c hr)
    unfold splitOnChar
    rw [if_neg hc, ih hrest]

theorem splitOnChar_cons (sep c : Char) (l : List Char) :
    splitOnChar sep (c :: l) =
      if c = sep then [] :: splitOnChar sep l
      else
        match splitOnChar sep l with
        | [] => [[c]]
        | w :: ws => (c :: w) :: ws := rfl

theorem splitOnChar_append_sep (sep : Char) (l₁ l₂ : List Char) (h : sep ∉ l₁) :
    splitOnChar sep (l₁ ++ sep :: l₂) = l₁ :: splitOnChar sep l₂ := by
  induction l₁ with
  | nil =>
    show splitOnChar sep (sep :: l₂) = [] :: splitOnChar sep l₂
    rw [splitOnChar_cons, if_pos rfl]
  | cons c rest ih =>
    have hc : ¬c = sep := fun hcs => h (hcs ▸ List.mem_cons_self c rest)
    have hrest : sep ∉ rest := fun hr => h (List.mem_cons_of_mem c hr)
    show splitOnChar sep (c :: (rest ++ sep :: l₂)) = (c :: rest) :: splitOnChar sep l₂
    rw [splitOnChar_cons, if_neg hc, ih hrest]

theorem pySplitSpace_join (fields : List String) (hne : fields ≠ [])
    (h : ∀ f ∈ fields, ' ' ∉ f.data) :
    pySplitSpace (joinWith " " fields) = fields := by
  induction fields with
  | nil => exact absurd rfl hne
  | cons f rest ih =>
    match rest with
    | [] =>
      show pySplitSpace f = [f]
      unfold pySplitSpace
      rw [splitOnChar_not_mem ' ' f.data (h f (List.mem_cons_self f []))]
      rfl
    | g :: grest =>
      have hdata : (f ++ " " ++ joinWith " " (g :: grest)).data =
          f.data ++ ' ' :: (joinWith " " (g :: grest)).data := by
        simp [String.data_append]
      show pySplitSpace (f ++ " " ++ joinWith " " (g :: grest)) = f :: g :: grest
      unfold pySplitSpace
      rw [hdata, splitOnChar_append_sep ' ' _ _ (h f (List.mem_cons_self f _))]
      have hrest : pySplitSpace (joinWith " " (g :: grest)) = g :: grest :=
        ih (by simp) (fun x hx => h x (List.mem_cons_of_mem f hx))
      unfold pySplitSpace at hrest
      simp only [List.map_cons, hrest]

theorem pad5_of_length_four (s : String) (h : s.length = 4) : pad5 s = "0" ++ s := by
  have h1 : 5 - s.length = 1 := by omega
  show (⟨List.replicate (5 - s.length) '0' ++ s.data⟩ : String) = "0" ++ s
  rw [h1]
  rfl

/-- Claim C9: for the three categories with a proposal id, run_generator pads
a four-character first field with exactly one leading zero before invoking the
selected generator, while the multivisit mosaic category passes the fields
through unpadded. -/
theorem run_generator_pads_proposal_id (f0 f1 f2 f3 f4 f5 f6 : String)
    (h0 : ' ' ∉ f0.data) (h1 : ' ' ∉ f1.data) (h2 : ' ' ∉ f2.data)
    (h3 : ' ' ∉ f3.data) (h4 : ' ' ∉ f4.data) (h5 : ' ' ∉ f5.data)
    (h6 : ' ' ∉ f6.data) (hlen : f0.length = 4) :
    run_generator "single exposure product 00" (joinWith " " [f0, f1, f2, f3, f4, f5, f6]) =
      single_exposure_product_filename_generator ["0" ++ f0, f1, f2, f3, f4, f5, f6] ∧
    run_generator "filter product 00" (joinWith " " [f0, f1, f2, f3, f4, f5, f6]) =
      filter_product_filename_generator ["0" ++ f0, f1, f2, f3, f4, f5, f6] ∧
    run_generator "total detection product 00" (joinWith " " [f0, f1, f2, f3, f4, f5, f6]) =
      total_detection_product_filename_generator ["0" ++ f0, f1, f2, f3, f4, f5, f6] ∧
    run_generator "multivisit mosaic product 00" (joinWith " " [f0, f1, f2, f3, f4, f5, f6]) =
      multivisit_mosaic_product_filename_generator [f0, f1, f2, f3, f4, f5, f6] := by
  have hsplit : pySplitSpace (joinWith " " [f0, f1, f2, f3, f4, f5, f6]) =
      [f0, f1, f2, f3, f4, f5, f6] :=
    pySplitSpace_join _ (by simp) (by
      intro f hf
      simp only [List.mem_cons, List.not_mem_nil, or_false] at hf
      rcases hf with rfl | rfl | rfl | rfl | rfl | rfl | rfl <;> assumption)
  have hpad := pad5_of_length_four f0 hlen
  refine ⟨?_, ?_, ?_, ?_⟩
  · unfold run_generator
    rw [show (findCategory "single exposure product 00" =
      some ("single exposure product", single_exposure_product_filename_generator)) from rfl]
    simp only [hsplit]
    simp [hpad]
  · unfold run_generator
    rw [show (findCategory "filter product 00" =
      some ("filter product", filter_product_filename_generator)) from rfl]
    simp only [hsplit]
    simp [hpad]
  · unfold run_generator
    rw [show (findCategory "total detection product 00" =
      some ("total detection product", total_detection_product_filename_generator)) from rfl]
    simp only [hsplit]
    simp [hpad]
  · unfold run_generator
    rw [show (findCategory "multivisit mosaic product 00" =
      some ("multivisit mosaic product", multivisit_mosaic_product_filename_generator)) from rfl]
    simp only [hsplit]
    simp

/-- Witness for claim C9 at a concrete four-character proposal id. -/
theorem run_generator_pads_proposal_id_witness :
    run_generator "single exposure product 00" (joinWith " " ["1150", "70", "WFC3", "IR", "F110W", "IA1S70JTQ", "drz"]) =
      single_exposure_product_filename_generator ["0" ++ "1150", "70", "WFC3", "IR", "F110W", "IA1S70JTQ", "drz"] ∧
    run_generator "multivisit mosaic product 00" (joinWith " " ["1150", "70", "WFC3", "IR", "F110W", "IA1S70JTQ", "drz"]) =
      multivisit_mosaic_product_filename_generator ["1150", "70", "WFC3", "IR", "F110W", "IA1S70JTQ", "drz"] := by
  have h := run_generator_pads_proposal_id "1150" "70" "WFC3" "IR" "F110W" "IA1S70JTQ" "drz"
    (by decide) (by decide) (by decide) (by decide) (by decide) (by decide) (by decide) (by decide)
  exact ⟨h.1, h.2.2.2⟩

-- ### Injectivity of the decimal formatting, needed for key freshness

theorem string_ext {s t : String} (h : s.data = t.data) : s = t := by
  cases s
  cases t
  exact congrArg String.mk h

theorem decAux_ne_nil : ∀ f n, n < f → decAux f n ≠ [] := by
  intro f
  induction f with
  | zero => intro n h; omega
  | succ f ih =>
    intro n _
    unfold decAux
    by_cases h10 : n < 10
    · rw [if_pos h10]
      simp
    · rw [if_neg h10]
      simp

theorem digitChar_inj_lt :
    ∀ m, m < 10 → ∀ n, n < 10 → Nat.digitChar m = Nat.digitChar n → m = n := by
  decide

theorem digitChar_ne_zero_char :
    ∀ n, n < 10 → n ≠ 0 → Nat.digitChar n ≠ '0' := by
  decide

theorem decAux_head_ne_zero :
    ∀ f n, n < f → n ≠ 0 → ∀ c, (decAux f n).head? = some c → c ≠ '0' := by
  intro f
  induction f with
  | zero => intro n h; omega
  | succ f ih =>
    intro n hn hn0 c hc
    unfold decAux at hc
    by_cases h10 : n < 10
    · rw [if_pos h10] at hc
      simp only [List.head?_cons, Option.some_inj] at hc
      exact hc ▸ digitChar_ne_zero_char n h10 hn0
    · rw [if_neg h10] at hc
      have hdivlt : n / 10 < f := by
        have := Nat.div_lt_self (by omega : 0 < n) (by omega : 1 < 10)
        omega
      have hdiv0 : n / 10 ≠ 0 := by
        have : 0 < n / 10 := Nat.div_pos (by omega) (by omega)
        omega
      rw [List.head?_append_of_ne_nil _ (decAux_ne_nil f (n / 10) hdivlt)] at hc
      exact ih (n / 10) hdivlt hdiv0 c hc

theorem decAux_inj :
    ∀ f₁ f₂ m n, m < f₁ → n < f₂ → decAux f₁ m = decAux f₂ n → m = n := by
  intro f₁
  induction f₁ with
  | zero => intro f₂ m n h; omega
  | succ f ih =>
    intro f₂ m n hm hn heq
    match f₂ with
    | 0 => omega
    | g + 1 =>
      unfold decAux at heq
      by_cases hm10 : m < 10 <;> by_cases hn10 : n < 10
      · rw [if_pos hm10, if_pos hn10] at heq
        simp only [List.cons.injEq] at heq
        exact digitChar_inj_lt m hm10 n hn10 heq.1
      · rw [if_pos hm10, if_neg hn10] at heq
        have hlen := congrArg List.length heq
        have hne := decAux_ne_nil g (n / 10) (by
          have := Nat.div_lt_self (by omega : 0 < n) (by omega : 1 < 10)
          omega)
        have hpos : 0 < (decAux g (n / 10)).length := List.length_pos.mpr hne
        simp only [List.length_cons, List.length_append, List.length_nil] at hlen
        omega
      · rw [if_neg hm10, if_pos hn10] at heq
        have hlen := congrArg List.length heq
        have hne := decAux_ne_nil f (m / 10) (by
          have := Nat.div_lt_self (by omega : 0 < m) (by omega : 1 < 10)
          omega)
        have hpos : 0 < (decAux f (m / 10)).length := List.length_pos.mpr hne
        simp only [List.length_cons, List.length_append, List.length_nil] at hlen
        omega
      · rw [if_neg hm10, if_neg hn10] at heq
        have hrev := congrArg List.reverse heq
        simp only [List.reverse_append, List.reverse_cons, List.reverse_nil,
          List.nil_append, List.singleton_append, List.cons.injEq] at hrev
        have hmod : m % 10 = n % 10 :=
          digitChar_inj_lt _ (Nat.mod_lt m (by omega)) _ (Nat.mod_lt n (by omega)) hrev.1
        have hdivs : decAux f (m / 10) = decAux g (n / 10) := by
          have := congrArg List.reverse hrev.2
          simpa using this
        have hmlt : m / 10 < f := by
          have := Nat.div_lt_self (by omega : 0 < m) (by omega : 1 < 10)
          omega
        have hnlt : n / 10 < g := by
          have := Nat.div_lt_self (by omega : 0 < n) (by omega : 1 < 10)
          omega
        have hdiv : m / 10 = n / 10 := ih g (m / 10) (n / 10) hmlt hnlt hdivs
        omega

theorem natToDec_inj {m n : Nat} (h : natToDec m = natToDec n) : m = n := by
  have hd : decAux (m + 1) m = decAux (n + 1) n := congrArg String.data h
  exact decAux_inj (m + 1) (n + 1) m n (by omega) (by omega) hd

theorem format02_inj {m n : Nat} (h : format02 m = format02 n) : m = n := by
  unfold format02 at h
  by_cases hm10 : m < 10 <;> by_cases hn10 : n < 10
  · rw [if_pos hm10, if_pos hn10] at h
    have hd := congrArg String.data h
    simp only [String.data_append] at hd
    exact natToDec_inj (string_ext (List.append_cancel_left hd))
  · rw [if_pos hm10, if_neg hn10] at h
    have hd := congrArg String.data h
    simp only [String.data_append] at hd
    have hhead := congrArg List.head? hd
    have hne0 : ∀ c, (decAux (n + 1) n).head? = some c → c ≠ '0' :=
      decAux_head_ne_zero (n + 1) n (by omega) (by omega)
    have : (("0" : String).data ++ (natToDec m).data).head? = some '0' := rfl
    rw [this] at hhead
    exact absurd rfl (hne0 '0' hhead.symm)
  · rw [if_neg hm10, if_pos hn10] at h
    have hd := congrArg String.data h
    simp only [String.data_append] at hd
    have hhead := congrArg List.head? hd
    have hne0 : ∀ c, (decAux (m + 1) m).head? = some c → c ≠ '0' :=
      decAux_head_ne_zero (m + 1) m (by omega) (by omega)
    have : (("0" : String).data ++ (natToDec n).data).head? = some '0' := rfl
    rw [this] at hhead
    exact absurd rfl (hne0 '0' hhead)
  · rw [if_neg hm10, if_neg hn10] at h
    exact natToDec_inj h

-- ### Distinctness of the product identifier keys

theorem SEP_STR_inj {m n : Nat} (h : SEP_STR m = SEP_STR n) : m = n := by
  unfold SEP_STR at h
  have hd := congrArg String.data h
  simp only [String.data_append] at hd
  exact format02_inj (string_ext (List.append_cancel_left hd))

theorem FP_STR_inj {m n : Nat} (h : FP_STR m = FP_STR n) : m = n := by
  unfold FP_STR at h
  have hd := congrArg String.data h
  simp only [String.data_append] at hd
  exact format02_inj (string_ext (List.append_cancel_left hd))

theorem TDP_STR_inj {m n : Nat} (h : TDP_STR m = TDP_STR n) : m = n := by
  unfold TDP_STR at h
  have hd := congrArg String.data h
  simp only [String.data_append] at hd
  exact format02_inj (string_ext (List.append_cancel_left hd))

theorem SEP_STR_head (n : Nat) : (SEP_STR n).data.head? = some 's' := rfl

theorem FP_STR_head (n : Nat) : (FP_STR n).data.head? = some 'f' := rfl

theorem TDP_STR_head (n : Nat) : (TDP_STR n).data.head? = some 't' := rfl

theorem SEP_ne_FP (m n : Nat) : SEP_STR m ≠ FP_STR n := by
  intro h
  have := (SEP_STR_head m) ▸ (congrArg (fun s : String => s.data.head?) h)
  rw [FP_STR_head] at this
  simp at this

theorem SEP_ne_TDP (m n : Nat) : SEP_STR m ≠ TDP_STR n := by
  intro h
  have := (SEP_STR_head m) ▸ (congrArg (fun s : String => s.data.head?) h)
  rw [TDP_STR_head] at this
  simp at this

theorem FP_ne_TDP (m n : Nat) : FP_STR m ≠ TDP_STR n := by
  intro h
  have := (FP_STR_head m) ▸ (congrArg (fun s : String => s.data.head?) h)
  rw [TDP_STR_head] at this
  simp at this

-- ### Behavior of the dict operations on decomposed states

theorem map_keep_of_ne (P : Products) (k : String) (v : Entry)
    (hP : ∀ p ∈ P, p.1 ≠ k) :
    P.map (fun p => if p.1 == k then (k, v) else p) = P := by
  induction P with
  | nil => rfl
  | cons p rest ih =>
    have hp : (p.1 == k) = false := beq_eq_false_iff_ne.mpr (hP p (List.mem_cons_self p rest))
    simp only [List.map_cons, hp]
    rw [ih (fun q hq => hP q (List.mem_cons_of_mem p hq))]
    simp

theorem dictSet_append (d : Products) (k : String) (v : Entry)
    (h : ∀ p ∈ d, p.1 ≠ k) :
    dictSet d k v = d ++ [(k, v)] := by
  have hany : d.any (fun p => p.1 == k) = false := by
    rw [List.any_eq_false]
    intro p hp
    simpa using h p hp
  simp [dictSet, hany]

theorem dictSet_update (P Q : Products) (k : String) (w v : Entry)
    (hP : ∀ p ∈ P, p.1 ≠ k) (hQ : ∀ p ∈ Q, p.1 ≠ k) :
    dictSet (P ++ (k, w) :: Q) k v = P ++ (k, v) :: Q := by
  have hany : (P ++ (k, w) :: Q).any (fun p => p.1 == k) = true := by
    rw [List.any_eq_true]
    exact ⟨(k, w), by simp, by simp⟩
  simp only [dictSet, hany, if_true, List.map_append, List.map_cons]
  rw [map_keep_of_ne P k v hP, map_keep_of_ne Q k v hQ]
  simp

theorem dictGetD_found (P Q : Products) (k : String) (w : Entry)
    (hP : ∀ p ∈ P, p.1 ≠ k) :
    dictGetD (P ++ (k, w) :: Q) k = w := by
  induction P with
  | nil =>
    simp [dictGetD, List.find?]
  | cons p rest ih =>
    have hp : (p.1 == k) = false := beq_eq_false_iff_ne.mpr (hP p (List.mem_cons_self p rest))
    have ihr := ih (fun q hq => hP q (List.mem_cons_of_mem p hq))
    simp only [dictGetD, List.cons_append, List.find?] at ihr ⊢
    rw [hp]
    exact ihr

theorem pyLast_ne_nil (l : List String) (h : l ≠ []) :
    pyLast l = Except.ok (l.getLastD "") := by
  unfold pyLast
  rw [List.getLastD_eq_getLast?]
  cases hl : l.getLast? with
  | none => exact absurd (List.getLast?_eq_none_iff.mp hl) h
  | some x => rfl

-- ### Canonical description of the parser output

/-- The info string assigned to a filter product from its first exposure. -/
def fpInfoStr (ft : String) (e : String × String) : String :=
  pyLower (joinWith " " (pySplit e.1) ++ " " ++ ft)

/-- The info string assigned to a total detection product from the first
exposure of its detector: the info fields with the last two dropped, then the
last field, then the filetype. -/
def tdpInfoStr (ft : String) (e : String × String) : String :=
  pyLower (joinWith " " (dropLast2 (pySplit e.1)) ++ " " ++ (pySplit e.1).getLastD "" ++ " " ++ ft)

/-- The single exposure entries of one leaf, with consecutive indices. -/
def canonSeps (ft : String) (k : Nat) : Leaf → Products
  | [] => []
  | e :: rest =>
    (SEP_STR k, ⟨pyLower (e.1 ++ " " ++ ft), [e.2]⟩) :: canonSeps ft (k + 1) rest

/-- The final filter product entry of one leaf. -/
def canonFpEntry (ft : String) (leaf : Leaf) : Entry :=
  ⟨(match leaf with | [] => "" | e :: _ => fpInfoStr ft e), leaf.map Prod.snd⟩

/-- The filter product and single exposure entries of one detector, in
output order. -/
def canonFilts (ft : String) (j k : Nat) : List Leaf → Products
  | [] => []
  | leaf :: rest =>
    (FP_STR j, canonFpEntry ft leaf) :: (canonSeps ft k leaf
      ++ canonFilts ft (j + 1) (k + leaf.length) rest)

/-- The filetype in effect inside one detector: detected from the first
exposure of the detector when it has one, otherwise the incoming value. -/
def detFT (ft0 : String) (ftree : List Leaf) : String :=
  match ftree.flatten with
  | [] => ft0
  | e :: _ => detectFT e.2

/-- The final total detection product entry of one detector. -/
def canonDetEntry (ft : String) (ftree : List Leaf) : Entry :=
  ⟨(match ftree.flatten with | [] => "" | e :: _ => tdpInfoStr ft e), (ftree.flatten).map Prod.snd⟩

/-- The full parser output for a list of detectors, with the three counters
and the filetype threaded through. -/
def canonDets (ft0 : String) (m j k : Nat) : List (List Leaf) → Products
  | [] => []
  | ftree :: rest =>
    (TDP_STR m, canonDetEntry (detFT ft0 ftree) ftree)
      :: (canonFilts (detFT ft0 ftree) j k ftree
        ++ canonDets (detFT ft0 ftree) (m + 1) (j + ftree.length) (k + (ftree.flatten).length) rest)

/-- No info string of the grouping structure is whitespace-only; the Python
code would raise IndexError on such an info string when computing the total
detection info, and every info string produced by create_row_info has at
least two fields. -/
def NoBlank (t : List (List Leaf)) : Prop :=
  ∀ ftree ∈ t, ∀ leaf ∈ ftree, ∀ e ∈ leaf, pySplit e.1 ≠ []

/-- The filter product entry update performed by one leaf of exposures: set
the info from the first exposure when still empty, append all filenames. -/
def updFP (ft : String) (leaf : Leaf) (e : Entry) : Entry :=
  match leaf with
  | [] => e
  | x :: _ => ⟨(if e.info = "" then fpInfoStr ft x else e.info), e.files ++ leaf.map Prod.snd⟩

/-- The total detection entry update performed by a list of exposures. -/
def updTD (ft : String) (exps : Leaf) (e : Entry) : Entry :=
  match exps with
  | [] => e
  | x :: _ => ⟨(if e.info = "" then tdpInfoStr ft x else e.info), e.files ++ exps.map Prod.snd⟩

/-- The filetype in effect after the detection step at the head of a leaf. -/
def leafFT (det prev : Nat) (ft : String) : Leaf → String
  | [] => ft
  | e :: _ => if det ≠ prev then detectFT e.2 else ft

theorem pyLower_app_space_ne (a b : String) : pyLower (a ++ " " ++ b) ≠ "" := by
  intro h
  have := congrArg (fun s : String => s.data.length) h
  simp [pyLower, String.data_append] at this

theorem fpInfoStr_ne_empty (ft : String) (e : String × String) : fpInfoStr ft e ≠ "" :=
  pyLower_app_space_ne _ _

theorem tdpInfoStr_ne_empty (ft : String) (e : String × String) : tdpInfoStr ft e ≠ "" :=
  pyLower_app_space_ne _ _

-- ### Stepwise characterization of the exposure loop

-- shape-specific dict lemmas
theorem dictGetD_shape_fp (P Q S : Products) (tdp fp : String) (et ef : Entry)
    (hPfp : ∀ p ∈ P, p.1 ≠ fp) (htdpfp : tdp ≠ fp) (hQfp : ∀ p ∈ Q, p.1 ≠ fp) :
    dictGetD (P ++ (tdp, et) :: (Q ++ (fp, ef) :: S)) fp = ef := by
  have hshape : P ++ (tdp, et) :: (Q ++ (fp, ef) :: S) =
      (P ++ (tdp, et) :: Q) ++ (fp, ef) :: S := by simp
  rw [hshape]
  apply dictGetD_found
  intro p hp
  rcases List.mem_append.mp hp with h | h
  · exact hPfp p h
  · rcases List.mem_cons.mp h with rfl | h
    · exact htdpfp
    · exact hQfp p h

theorem dictSet_shape_fp (P Q S : Products) (tdp fp : String) (et ef v : Entry)
    (hPfp : ∀ p ∈ P, p.1 ≠ fp) (htdpfp : tdp ≠ fp) (hQfp : ∀ p ∈ Q, p.1 ≠ fp)
    (hSfp : ∀ p ∈ S, p.1 ≠ fp) :
    dictSet (P ++ (tdp, et) :: (Q ++ (fp, ef) :: S)) fp v =
      P ++ (tdp, et) :: (Q ++ (fp, v) :: S) := by
  have hshape : P ++ (tdp, et) :: (Q ++ (fp, ef) :: S) =
      (P ++ (tdp, et) :: Q) ++ (fp, ef) :: S := by simp
  rw [hshape]
  rw [dictSet_update _ _ _ _ _ ?hp hSfp]
  · simp
  case hp =>
    intro p hp
    rcases List.mem_append.mp hp with h | h
    · exact hPfp p h
    · rcases List.mem_cons.mp h with rfl | h
      · exact htdpfp
      · exact hQfp p h

theorem parseExposure_eq (tdp fp : String) (P Q S : Products) (et ef : Entry)
    (st : PState) (e : String × String) (ftv : String)
    (hft : ftv = if st.det_indx ≠ st.prev_det_indx then detectFT e.2 else st.filetype)
    (hprod : st.products = P ++ (tdp, et) :: (Q ++ (fp, ef) :: S))
    (hpair : st.products.Pairwise (fun p q => p.1 ≠ q.1))
    (hfreshS : ∀ k, st.sep_indx ≤ k → ∀ p ∈ st.products, p.1 ≠ SEP_STR k)
    (hsp : pySplit e.1 ≠ []) :
    parseExposure tdp fp st e = Except.ok
      { products := P ++ (tdp, ⟨(if et.info = "" then tdpInfoStr ftv e else et.info), et.files ++ [e.2]⟩)
          :: (Q ++ (fp, ⟨(if ef.info = "" then fpInfoStr ftv e else ef.info), ef.files ++ [e.2]⟩)
          :: (S ++ [(SEP_STR st.sep_indx, ⟨pyLower (e.1 ++ " " ++ ftv), [e.2]⟩)])),
        prev_det_indx := st.det_indx,
        det_indx := st.det_indx,
        filt_indx := st.filt_indx,
        sep_indx := st.sep_indx + 1,
        filetype := ftv } := by
  rw [hprod] at hpair
  -- extract pairwise facts
  simp only [List.pairwise_append, List.pairwise_cons, List.mem_append, List.mem_cons] at hpair
  obtain ⟨hPp, ⟨htdpRest, hQp, ⟨hfpS, hSp⟩, hQRest⟩, hPRest⟩ := hpair
  have hPfp : ∀ p ∈ P, p.1 ≠ fp := fun p hp => hPRest p hp (fp, ef) (Or.inr (Or.inr (Or.inl rfl)))
  have hPtdp : ∀ p ∈ P, p.1 ≠ tdp := fun p hp => hPRest p hp (tdp, et) (Or.inl rfl)
  have htdpfp : tdp ≠ fp := htdpRest (fp, ef) (Or.inr (Or.inl rfl))
  have hQfp : ∀ p ∈ Q, p.1 ≠ fp := fun p hp => hQRest p hp (fp, ef) (Or.inl rfl)
  have hSfp : ∀ p ∈ S, p.1 ≠ fp := fun p hp => (hfpS p hp).symm
  have hQtdp : ∀ p ∈ Q, p.1 ≠ tdp := fun p hp => (htdpRest p (Or.inl hp)).symm
  have hStdp : ∀ p ∈ S, p.1 ≠ tdp := fun p hp => (htdpRest p (Or.inr (Or.inr hp))).symm
  have hsepAll : ∀ p ∈ P ++ (tdp, et) :: (Q ++ (fp, ef) :: S), p.1 ≠ SEP_STR st.sep_indx :=
    hprod ▸ hfreshS st.sep_indx (Nat.le_refl _)
  have hfpSep : fp ≠ SEP_STR st.sep_indx := hsepAll (fp, ef) (by simp)
  have htdpSep : tdp ≠ SEP_STR st.sep_indx := hsepAll (tdp, et) (by simp)
  simp only [parseExposure]
  rw [← hft]
  rw [hprod, dictSet_append _ _ _ hsepAll]
  simp only [List.append_assoc, List.cons_append]
  rw [dictGetD_shape_fp P Q _ tdp fp et ef hPfp htdpfp hQfp]
  rw [dictSet_shape_fp P Q _ tdp fp et ef _ hPfp htdpfp hQfp ?hS1]
  case hS1 =>
    intro p hp
    rcases List.mem_append.mp hp with h | h
    · exact hSfp p h
    · rcases List.mem_singleton.mp h with rfl
      exact fun hc => hfpSep hc.symm
  rw [dictGetD_found P _ tdp et hPtdp]
  rw [pyLast_ne_nil _ hsp]
  have hbind : ∀ (a : Entry) (f : Entry → Except PyErr PState), (Except.ok a >>= f) = f a :=
    fun a f => rfl
  have hbindS : ∀ (a : String) (f : String → Except PyErr PState), (Except.ok a >>= f) = f a :=
    fun a f => rfl
  have hbindP : ∀ (a : Entry) (f : Entry → Except PyErr PState),
      ((pure a : Except PyErr Entry) >>= f) = f a := fun a f => rfl
  have hResttdp : ∀ x : Entry, ∀ p ∈ Q ++ (fp, x) ::
      (S ++ [(SEP_STR st.sep_indx, (⟨pyLower (e.1 ++ " " ++ ftv), [e.2]⟩ : Entry))]), p.1 ≠ tdp := by
    intro x p hp
    rcases List.mem_append.mp hp with h | h
    · exact hQtdp p h
    · rcases List.mem_cons.mp h with rfl | h
      · exact fun hc => htdpfp hc.symm
      · rcases List.mem_append.mp h with h | h
        · exact hStdp p h
        · rcases List.mem_singleton.mp h with rfl
          exact fun hc => htdpSep hc.symm
  by_cases hefi : ef.info = "" <;> by_cases heti : et.info = "" <;>
      simp only [hefi, heti, if_pos, if_neg, ite_true, ite_false, if_true, if_false] <;>
    · simp only [hbindS, hbindP]
      rw [dictSet_update P _ tdp et _ hPtdp (hResttdp _)] <;>
        simp [tdpInfoStr, fpInfoStr]

theorem leafFT_self (d : Nat) (f : String) (l : Leaf) : leafFT d d f l = f := by
  cases l <;> simp [leafFT]

theorem updTD_step (ft : String) (e : String × String) (rest : Leaf) (et : Entry) :
    updTD ft rest ⟨(if et.info = "" then tdpInfoStr ft e else et.info), et.files ++ [e.2]⟩ =
      updTD ft (e :: rest) et := by
  cases rest with
  | nil => simp [updTD]
  | cons x xs =>
    by_cases he : et.info = ""
    · simp [updTD, he, tdpInfoStr_ne_empty ft e]
    · simp [updTD, he]

theorem updFP_step (ft : String) (e : String × String) (rest : Leaf) (ef : Entry) :
    updFP ft rest ⟨(if ef.info = "" then fpInfoStr ft e else ef.info), ef.files ++ [e.2]⟩ =
      updFP ft (e :: rest) ef := by
  cases rest with
  | nil => simp [updFP]
  | cons x xs =>
    by_cases he : ef.info = ""
    · simp [updFP, he, fpInfoStr_ne_empty ft e]
    · simp [updFP, he]

theorem pairwise_shape_step (P Q S : Products) (tdp fp sep : String) (et ef a b c : Entry)
    (hpair : (P ++ (tdp, et) :: (Q ++ (fp, ef) :: S)).Pairwise (fun p q => p.1 ≠ q.1))
    (hsepAll : ∀ p ∈ P ++ (tdp, et) :: (Q ++ (fp, ef) :: S), p.1 ≠ sep) :
    (P ++ (tdp, a) :: (Q ++ (fp, b) :: (S ++ [(sep, c)]))).Pairwise (fun p q => p.1 ≠ q.1) := by
  simp only [List.pairwise_append, List.pairwise_cons, List.mem_append, List.mem_cons,
    List.mem_singleton] at hpair ⊢
  simp only [List.not_mem_nil, or_false, false_or]
  obtain ⟨hPp, ⟨htdpRest, hQp, ⟨hfpS, hSp⟩, hQRest⟩, hPRest⟩ := hpair
  have htdpsep : tdp ≠ sep := hsepAll (tdp, et) (by simp)
  have hfpsep : fp ≠ sep := hsepAll (fp, ef) (by simp)
  refine ⟨hPp, ⟨?_, hQp, ⟨?_, hSp, ⟨by simp, by simp⟩, ?_⟩, ?_⟩, ?_⟩
  · intro p hp
    rcases hp with h | h | h | h
    · exact htdpRest p (Or.inl h)
    · rw [h]
      exact htdpRest (fp, ef) (Or.inr (Or.inl rfl))
    · exact htdpRest p (Or.inr (Or.inr h))
    · rw [h]
      exact htdpsep
  · intro p hp
    rcases hp with h | h
    · exact hfpS p h
    · rw [h]
      exact hfpsep
  · intro p hp q hq
    rw [hq]
    exact hsepAll p (by simp [hp])
  · intro p hp q hq
    rcases hq with h | h | h
    · rw [h]
      exact hQRest p hp (fp, ef) (Or.inl rfl)
    · exact hQRest p hp q (Or.inr h)
    · rw [h]
      exact hsepAll p (by simp [hp])
  · intro p hp q hq
    rcases hq with h | h | h | h | h
    · rw [h]
      exact hPRest p hp (tdp, et) (Or.inl rfl)
    · exact hPRest p hp q (Or.inr (Or.inl h))
    · rw [h]
      exact hPRest p hp (fp, ef) (Or.inr (Or.inr (Or.inl rfl)))
    · exact hPRest p hp q (Or.inr (Or.inr (Or.inr h)))
    · rw [h]
      exact hsepAll p (by simp [hp])

theorem freshS_shape_step (P Q S : Products) (tdp fp : String) (et ef a b c : Entry) (sq : Nat)
    (hfreshS : ∀ k, sq ≤ k → ∀ p ∈ P ++ (tdp, et) :: (Q ++ (fp, ef) :: S), p.1 ≠ SEP_STR k) :
    ∀ k, sq + 1 ≤ k →
      ∀ p ∈ P ++ (tdp, a) :: (Q ++ (fp, b) :: (S ++ [(SEP_STR sq, c)])), p.1 ≠ SEP_STR k := by
  intro k hk p hp
  simp only [List.mem_append, List.mem_cons, List.mem_singleton] at hp
  rcases hp with h | h | h | h | h | (h | h)
  · exact hfreshS k (by omega) p (by simp [h])
  · rw [h]
    exact hfreshS k (by omega) (tdp, et) (by simp)
  · exact hfreshS k (by omega) p (by simp [h])
  · rw [h]
    exact hfreshS k (by omega) (fp, ef) (by simp)
  · exact hfreshS k (by omega) p (by simp [h])
  · rw [h]
    intro hc
    have := SEP_STR_inj hc
    omega
  · cases h

theorem parseExposures_eq (exps : Leaf) :
    ∀ (tdp fp : String) (P Q S : Products) (et ef : Entry) (st : PState),
    st.products = P ++ (tdp, et) :: (Q ++ (fp, ef) :: S) →
    (st.products.Pairwise fun p q => p.1 ≠ q.1) →
    (∀ k, st.sep_indx ≤ k → ∀ p ∈ st.products, p.1 ≠ SEP_STR k) →
    (∀ e ∈ exps, pySplit e.1 ≠ []) →
    parseExposures tdp fp st exps = Except.ok
      { products := P ++ (tdp, updTD (leafFT st.det_indx st.prev_det_indx st.filetype exps) exps et)
          :: (Q ++ (fp, updFP (leafFT st.det_indx st.prev_det_indx st.filetype exps) exps ef)
          :: (S ++ canonSeps (leafFT st.det_indx st.prev_det_indx st.filetype exps) st.sep_indx exps)),
        prev_det_indx := (match exps with
          | [] => st.prev_det_indx
          | _ :: _ => st.det_indx),
        det_indx := st.det_indx,
        filt_indx := st.filt_indx,
        sep_indx := st.sep_indx + exps.length,
        filetype := leafFT st.det_indx st.prev_det_indx st.filetype exps } := by
  induction exps with
  | nil =>
    intro tdp fp P Q S et ef st hprod hpair hfreshS hsp
    simp only [parseExposures, leafFT, updTD, updFP, canonSeps, List.append_nil, List.length_nil,
      Nat.add_zero]
    rw [← hprod]
  | cons e rest ih =>
    intro tdp fp P Q S et ef st hprod hpair hfreshS hsp
    have hft : leafFT st.det_indx st.prev_det_indx st.filetype (e :: rest) =
        if st.det_indx ≠ st.prev_det_indx then detectFT e.2 else st.filetype := rfl
    show (do
        let st1 ← parseExposure tdp fp st e
        parseExposures tdp fp st1 rest) = _
    rw [parseExposure_eq tdp fp P Q S et ef st e _ hft.symm hprod hpair hfreshS
      (hsp e (List.mem_cons_self e rest))]
    have hbind : ∀ (a : PState) (f : PState → Except PyErr PState), (Except.ok a >>= f) = f a :=
      fun a f => rfl
    rw [hbind]
    have hpairS : (P ++ (tdp, et) :: (Q ++ (fp, ef) :: S)).Pairwise (fun p q => p.1 ≠ q.1) :=
      hprod ▸ hpair
    have hsepAllS : ∀ p ∈ P ++ (tdp, et) :: (Q ++ (fp, ef) :: S), p.1 ≠ SEP_STR st.sep_indx := by
      rw [← hprod]
      exact hfreshS st.sep_indx (Nat.le_refl _)
    have hfreshSS : ∀ k, st.sep_indx ≤ k →
        ∀ p ∈ P ++ (tdp, et) :: (Q ++ (fp, ef) :: S), p.1 ≠ SEP_STR k := by
      intro k hk
      rw [← hprod]
      exact hfreshS k hk
    rw [ih tdp fp P Q _ _ _ _ rfl
      (pairwise_shape_step P Q S tdp fp _ et ef _ _ _ hpairS hsepAllS)
      (freshS_shape_step P Q S tdp fp et ef _ _ _ st.sep_indx hfreshSS)
      (fun x hx => hsp x (List.mem_cons_of_mem e hx))]
    simp only [leafFT_self, updTD_step, updFP_step]
    rw [hft]
    simp only [canonSeps, List.append_assoc, List.singleton_append, List.cons_append,
      List.length_cons, PState.mk.injEq]
    cases rest with
    | nil => simp
    | cons r rs =>
      simp
      omega

theorem pairwise_entries_congr (L L' : Products) (h : L.map Prod.fst = L'.map Prod.fst)
    (hp : L.Pairwise (fun p q => p.1 ≠ q.1)) : L'.Pairwise (fun p q => p.1 ≠ q.1) := by
  have h1 : (L.map Prod.fst).Pairwise (fun a b => a ≠ b) := List.pairwise_map.mpr hp
  rw [h] at h1
  exact List.pairwise_map.mp h1

theorem keyNotIn_iff (k : String) (L : Products) :
    (∀ p ∈ L, p.1 ≠ k) ↔ k ∉ L.map Prod.fst := by
  simp only [List.mem_map]
  constructor
  · rintro h ⟨p, hp, rfl⟩
    exact h p hp rfl
  · intro h p hp hk
    exact h ⟨p, hp, hk⟩

theorem keyNotIn_entries_congr (k : String) (L L' : Products)
    (h : L.map Prod.fst = L'.map Prod.fst) (hk : ∀ p ∈ L, p.1 ≠ k) :
    ∀ p ∈ L', p.1 ≠ k := by
  rw [keyNotIn_iff] at hk ⊢
  rw [← h]
  exact hk

theorem pairwise_append_new (L A : Products)
    (hL : L.Pairwise (fun p q => p.1 ≠ q.1)) (hA : A.Pairwise (fun p q => p.1 ≠ q.1))
    (hLA : ∀ p ∈ L, ∀ q ∈ A, p.1 ≠ q.1) :
    (L ++ A).Pairwise (fun p q => p.1 ≠ q.1) :=
  List.pairwise_append.mpr ⟨hL, hA, hLA⟩

theorem canonSeps_keys (ft : String) (leaf : Leaf) :
    ∀ k, ∀ p ∈ canonSeps ft k leaf, ∃ i, k ≤ i ∧ i < k + leaf.length ∧ p.1 = SEP_STR i := by
  induction leaf with
  | nil => intro k p hp; cases hp
  | cons e rest ih =>
    intro k p hp
    rcases List.mem_cons.mp hp with rfl | hp
    · exact ⟨k, Nat.le_refl _, by simp, rfl⟩
    · obtain ⟨i, h1, h2, h3⟩ := ih (k + 1) p hp
      exact ⟨i, by omega, by simp; omega, h3⟩

theorem canonSeps_pairwise (ft : String) (leaf : Leaf) :
    ∀ k, (canonSeps ft k leaf).Pairwise (fun p q => p.1 ≠ q.1) := by
  induction leaf with
  | nil => intro k; exact List.Pairwise.nil
  | cons e rest ih =>
    intro k
    refine List.Pairwise.cons ?_ (ih (k + 1))
    intro q hq
    obtain ⟨i, h1, _, h3⟩ := canonSeps_keys ft rest (k + 1) q hq
    rw [h3]
    intro hc
    have := SEP_STR_inj hc
    omega

theorem updTD_append (ft : String) (l₁ l₂ : Leaf) (et : Entry) :
    updTD ft l₂ (updTD ft l₁ et) = updTD ft (l₁ ++ l₂) et := by
  cases l₁ with
  | nil => simp [updTD]
  | cons x xs =>
    cases l₂ with
    | nil => simp [updTD]
    | cons y ys =>
      by_cases he : et.info = ""
      · simp [updTD, he, tdpInfoStr_ne_empty]
      · simp [updTD, he]

theorem updFP_append (ft : String) (l₁ l₂ : Leaf) (ef : Entry) :
    updFP ft l₂ (updFP ft l₁ ef) = updFP ft (l₁ ++ l₂) ef := by
  cases l₁ with
  | nil => simp [updFP]
  | cons x xs =>
    cases l₂ with
    | nil => simp [updFP]
    | cons y ys =>
      by_cases he : ef.info = ""
      · simp [updFP, he, fpInfoStr_ne_empty]
      · simp [updFP, he]

theorem updFP_empty (ft : String) (leaf : Leaf) :
    updFP ft leaf ⟨"", []⟩ = canonFpEntry ft leaf := by
  cases leaf <;> simp [updFP, canonFpEntry]

theorem parseFilters_eq (leaves : List Leaf) :
    ∀ (tdp : String) (P T : Products) (et : Entry) (st : PState),
    st.products = P ++ (tdp, et) :: T →
    (st.products.Pairwise fun p q => p.1 ≠ q.1) →
    (∀ k, st.sep_indx ≤ k → ∀ p ∈ st.products, p.1 ≠ SEP_STR k) →
    (∀ j, st.filt_indx ≤ j → ∀ p ∈ st.products, p.1 ≠ FP_STR j) →
    (∀ leaf ∈ leaves, ∀ e ∈ leaf, pySplit e.1 ≠ []) →
    parseFilters tdp st leaves = Except.ok
      { products := P ++ (tdp, updTD (leafFT st.det_indx st.prev_det_indx st.filetype leaves.flatten) leaves.flatten et)
          :: (T ++ canonFilts (leafFT st.det_indx st.prev_det_indx st.filetype leaves.flatten) st.filt_indx st.sep_indx leaves),
        prev_det_indx := (match leaves.flatten with
          | [] => st.prev_det_indx
          | _ :: _ => st.det_indx),
        det_indx := st.det_indx,
        filt_indx := st.filt_indx + leaves.length,
        sep_indx := st.sep_indx + leaves.flatten.length,
        filetype := leafFT st.det_indx st.prev_det_indx st.filetype leaves.flatten } := by
  induction leaves with
  | nil =>
    intro tdp P T et st hprod hpair hfreshS hfreshF hsp
    simp only [parseFilters, List.flatten_nil, leafFT, updTD, canonFilts, List.append_nil,
      List.length_nil, Nat.add_zero]
    rw [← hprod]
  | cons leaf rest ih =>
    intro tdp P T et st hprod hpair hfreshS hfreshF hsp
    have hfpfresh : ∀ p ∈ st.products, p.1 ≠ FP_STR st.filt_indx :=
      hfreshF st.filt_indx (Nat.le_refl _)
    show (do
        let st1 ← parseExposures tdp (FP_STR st.filt_indx)
          { st with
            products := dictSet st.products (FP_STR st.filt_indx) ⟨"", []⟩,
            filt_indx := st.filt_indx + 1 } leaf
        parseFilters tdp st1 rest) = _
    rw [dictSet_append _ _ _ hfpfresh, hprod]
    have hbind : ∀ (a : PState) (f : PState → Except PyErr PState), (Except.ok a >>= f) = f a :=
      fun a f => rfl
    have hpair1 : ((P ++ (tdp, et) :: T) ++ [(FP_STR st.filt_indx, (⟨"", []⟩ : Entry))]).Pairwise
        (fun p q => p.1 ≠ q.1) := by
      refine pairwise_append_new _ _ (hprod ▸ hpair) (List.pairwise_singleton _ _) ?_
      intro p hp q hq
      rw [List.mem_singleton.mp hq]
      exact (hprod ▸ hfpfresh) p hp
    have hfreshS1 : ∀ k, st.sep_indx ≤ k →
        ∀ p ∈ (P ++ (tdp, et) :: T) ++ [(FP_STR st.filt_indx, (⟨"", []⟩ : Entry))],
          p.1 ≠ SEP_STR k := by
      intro k hk p hp
      rcases List.mem_append.mp hp with h | h
      · exact (hprod ▸ hfreshS k hk) p h
      · rw [List.mem_singleton.mp h]
        exact fun hc => SEP_ne_FP k st.filt_indx hc.symm
    rw [show (P ++ (tdp, et) :: T) ++ [(FP_STR st.filt_indx, (⟨"", []⟩ : Entry))] =
      P ++ (tdp, et) :: (T ++ (FP_STR st.filt_indx, (⟨"", []⟩ : Entry)) :: []) from by simp]
    rw [parseExposures_eq leaf tdp (FP_STR st.filt_indx) P T [] et ⟨"", []⟩ _ rfl
      (by
        refine pairwise_entries_congr _ _ ?_ hpair1
        simp)
      (by
        intro k hk p hp
        refine keyNotIn_entries_congr _ _ _ ?_ (hfreshS1 k hk) p hp
        simp)
      (hsp leaf (List.mem_cons_self leaf rest))]
    rw [hbind]
    dsimp only [List.nil_append]
    have hfreshS_orig : ∀ k, st.sep_indx ≤ k → ∀ p ∈ P ++ (tdp, et) :: T, p.1 ≠ SEP_STR k := by
      intro k hk
      rw [← hprod]
      exact hfreshS k hk
    have hfreshF_orig : ∀ j, st.filt_indx ≤ j → ∀ p ∈ P ++ (tdp, et) :: T, p.1 ≠ FP_STR j := by
      intro j hj
      rw [← hprod]
      exact hfreshF j hj
    have hmem5 : ∀ (a b : Entry) (ftx : String) (p : String × Entry),
        p ∈ P ++ (tdp, a) :: (T ++ (FP_STR st.filt_indx, b) :: canonSeps ftx st.sep_indx leaf) →
        p ∈ P ∨ p = (tdp, a) ∨ p ∈ T ∨ p = (FP_STR st.filt_indx, b) ∨
          p ∈ canonSeps ftx st.sep_indx leaf := by
      intro a b ftx p hp
      simp only [List.mem_append, List.mem_cons] at hp
      tauto
    have hfreshS2 : ∀ (a b : Entry) (ftx : String), ∀ k, st.sep_indx + leaf.length ≤ k →
        ∀ p ∈ P ++ (tdp, a) :: (T ++ (FP_STR st.filt_indx, b) :: canonSeps ftx st.sep_indx leaf),
          p.1 ≠ SEP_STR k := by
      intro a b ftx k hk p hp
      rcases hmem5 a b ftx p hp with h | h | h | h | h
      · exact hfreshS_orig k (by omega) p (by simp [h])
      · rw [h]
        exact hfreshS_orig k (by omega) (tdp, et) (by simp)
      · exact hfreshS_orig k (by omega) p (by simp [h])
      · rw [h]
        exact fun hc => SEP_ne_FP k st.filt_indx hc.symm
      · obtain ⟨i, h1, h2, h3⟩ := canonSeps_keys ftx leaf st.sep_indx p h
        rw [h3]
        intro hc
        have := SEP_STR_inj hc
        omega
    have hfreshF2 : ∀ (a b : Entry) (ftx : String), ∀ j, st.filt_indx + 1 ≤ j →
        ∀ p ∈ P ++ (tdp, a) :: (T ++ (FP_STR st.filt_indx, b) :: canonSeps ftx st.sep_indx leaf),
          p.1 ≠ FP_STR j := by
      intro a b ftx j hj p hp
      rcases hmem5 a b ftx p hp with h | h | h | h | h
      · exact hfreshF_orig j (by omega) p (by simp [h])
      · rw [h]
        exact hfreshF_orig j (by omega) (tdp, et) (by simp)
      · exact hfreshF_orig j (by omega) p (by simp [h])
      · rw [h]
        intro hc
        have := FP_STR_inj hc
        omega
      · obtain ⟨i, h1, h2, h3⟩ := canonSeps_keys ftx leaf st.sep_indx p h
        rw [h3]
        exact SEP_ne_FP i j
    have hpair2 : ∀ (a b : Entry) (ftx : String),
        (P ++ (tdp, a) :: (T ++ (FP_STR st.filt_indx, b) :: canonSeps ftx st.sep_indx leaf)).Pairwise
          (fun p q => p.1 ≠ q.1) := by
      intro a b ftx
      have hshape : P ++ (tdp, a) :: (T ++ (FP_STR st.filt_indx, b) :: canonSeps ftx st.sep_indx leaf) =
          (P ++ (tdp, a) :: (T ++ [(FP_STR st.filt_indx, b)])) ++ canonSeps ftx st.sep_indx leaf := by
        simp
      rw [hshape]
      refine pairwise_append_new _ _ ?_ (canonSeps_pairwise ftx leaf st.sep_indx) ?_
      · refine pairwise_entries_congr
          ((P ++ (tdp, et) :: T) ++ [(FP_STR st.filt_indx, (⟨"", []⟩ : Entry))]) _ ?_ hpair1
        simp
      · intro p hp q hq
        obtain ⟨i, h1, h2, h3⟩ := canonSeps_keys ftx leaf st.sep_indx q hq
        rw [h3]
        have hp' : p ∈ P ∨ p = (tdp, a) ∨ p ∈ T ∨ p = (FP_STR st.filt_indx, b) := by
          simp only [List.mem_append, List.mem_cons, List.mem_singleton] at hp
          tauto
        rcases hp' with h | h | h | h
        · exact hfreshS_orig i h1 p (by simp [h])
        · rw [h]
          exact hfreshS_orig i h1 (tdp, et) (by simp)
        · exact hfreshS_orig i h1 p (by simp [h])
        · rw [h]
          exact fun hc => SEP_ne_FP i st.filt_indx hc.symm
    rw [ih tdp P _ _ _ rfl (hpair2 _ _ _) (hfreshS2 _ _ _) (hfreshF2 _ _ _)
      (fun x hx => hsp x (List.mem_cons_of_mem leaf hx))]
    dsimp only
    cases leaf with
    | nil =>
      simp only [updTD, updFP, canonSeps, canonFilts, canonFpEntry, leafFT, List.flatten_cons,
        List.nil_append, List.append_nil, List.length_nil, Nat.add_zero, List.length_cons]
      simp
      omega
    | cons e lrest =>
      rw [leafFT_self]
      rw [updTD_append]
      rw [updFP_empty]
      simp only [canonFilts, List.flatten_cons, List.length_cons, List.cons_append, leafFT]
      cases hfr : rest.flatten <;> simp <;> omega

theorem canonFilts_keys (ft : String) (leaves : List Leaf) :
    ∀ j k, ∀ p ∈ canonFilts ft j k leaves,
      (∃ a, j ≤ a ∧ a < j + leaves.length ∧ p.1 = FP_STR a) ∨
      (∃ b, k ≤ b ∧ b < k + leaves.flatten.length ∧ p.1 = SEP_STR b) := by
  induction leaves with
  | nil => intro j k p hp; cases hp
  | cons leaf rest ih =>
    intro j k p hp
    rcases List.mem_cons.mp hp with rfl | hp
    · exact Or.inl ⟨j, Nat.le_refl _, by simp, rfl⟩
    · rcases List.mem_append.mp hp with h | h
      · obtain ⟨i, h1, h2, h3⟩ := canonSeps_keys ft leaf k p h
        refine Or.inr ⟨i, h1, ?_, h3⟩
        simp only [List.flatten_cons, List.length_append]
        omega
      · rcases ih (j + 1) (k + leaf.length) p h with ⟨a, h1, h2, h3⟩ | ⟨b, h1, h2, h3⟩
        · refine Or.inl ⟨a, by omega, ?_, h3⟩
          simp
          omega
        · refine Or.inr ⟨b, by omega, ?_, h3⟩
          simp only [List.flatten_cons, List.length_append]
          omega

theorem canonFilts_pairwise (ft : String) (leaves : List Leaf) :
    ∀ j k, (canonFilts ft j k leaves).Pairwise (fun p q => p.1 ≠ q.1) := by
  induction leaves with
  | nil => intro j k; exact List.Pairwise.nil
  | cons leaf rest ih =>
    intro j k
    refine List.Pairwise.cons ?_ (pairwise_append_new _ _ (canonSeps_pairwise ft leaf k)
      (ih (j + 1) (k + leaf.length)) ?_)
    · intro q hq
      rcases List.mem_append.mp hq with h | h
      · obtain ⟨i, _, _, h3⟩ := canonSeps_keys ft leaf k q h
        rw [h3]
        exact fun hc => SEP_ne_FP i j hc.symm
      · rcases canonFilts_keys ft rest (j + 1) (k + leaf.length) q h with
          ⟨a, h1, _, h3⟩ | ⟨b, _, _, h3⟩
        · rw [h3]
          intro hc
          have := FP_STR_inj hc
          omega
        · rw [h3]
          exact fun hc => SEP_ne_FP b j hc.symm
    · intro p hp q hq
      obtain ⟨i, _, h2, h3⟩ := canonSeps_keys ft leaf k p hp
      rcases canonFilts_keys ft rest (j + 1) (k + leaf.length) q hq with
        ⟨a, _, _, h6⟩ | ⟨b, h4, _, h6⟩
      · rw [h3, h6]
        exact SEP_ne_FP i a
      · rw [h3, h6]
        intro hc
        have := SEP_STR_inj hc
        omega

theorem updTD_empty (ft : String) (ftree : List Leaf) :
    updTD ft ftree.flatten ⟨"", []⟩ = canonDetEntry ft ftree := by
  unfold canonDetEntry
  cases hf : ftree.flatten <;> simp [updTD, hf]

theorem parseDetectors_eq (dets : List (List Leaf)) :
    ∀ (st : PState),
    (st.products.Pairwise fun p q => p.1 ≠ q.1) →
    (∀ k, st.sep_indx ≤ k → ∀ p ∈ st.products, p.1 ≠ SEP_STR k) →
    (∀ j, st.filt_indx ≤ j → ∀ p ∈ st.products, p.1 ≠ FP_STR j) →
    (∀ i, st.det_indx ≤ i → ∀ p ∈ st.products, p.1 ≠ TDP_STR i) →
    st.prev_det_indx ≤ st.det_indx →
    (∀ ftree ∈ dets, ∀ leaf ∈ ftree, ∀ e ∈ leaf, pySplit e.1 ≠ []) →
    ∃ prevOut ftOut, parseDetectors st dets = Except.ok
      { products := st.products ++ canonDets st.filetype st.det_indx st.filt_indx st.sep_indx dets,
        prev_det_indx := prevOut,
        det_indx := st.det_indx + dets.length,
        filt_indx := st.filt_indx + (dets.map List.length).sum,
        sep_indx := st.sep_indx + (dets.map (fun d => d.flatten.length)).sum,
        filetype := ftOut } ∧ prevOut ≤ st.det_indx + dets.length := by
  induction dets with
  | nil =>
    intro st hpair hfreshS hfreshF hfreshT hprev hsp
    refine ⟨st.prev_det_indx, st.filetype, ?_, by simpa using hprev⟩
    simp only [parseDetectors, canonDets, List.append_nil, List.length_nil, Nat.add_zero,
      List.map_nil, List.sum_nil]
  | cons ftree rest ih =>
    intro st hpair hfreshS hfreshF hfreshT hprev hsp
    have htdpfresh : ∀ p ∈ st.products, p.1 ≠ TDP_STR st.det_indx :=
      hfreshT st.det_indx (Nat.le_refl _)
    simp only [parseDetectors]
    rw [dictSet_append _ _ _ htdpfresh]
    have hpair1 : (st.products ++ (TDP_STR st.det_indx, (⟨"", []⟩ : Entry)) :: []).Pairwise
        (fun p q => p.1 ≠ q.1) := by
      refine pairwise_append_new _ _ hpair (List.pairwise_singleton _ _) ?_
      intro p hp q hq
      rw [List.mem_singleton.mp hq]
      exact htdpfresh p hp
    have hfreshS1 : ∀ k, st.sep_indx ≤ k →
        ∀ p ∈ st.products ++ (TDP_STR st.det_indx, (⟨"", []⟩ : Entry)) :: [], p.1 ≠ SEP_STR k := by
      intro k hk p hp
      rcases List.mem_append.mp hp with h | h
      · exact hfreshS k hk p h
      · rw [List.mem_singleton.mp h]
        exact fun hc => SEP_ne_TDP k st.det_indx hc.symm
    have hfreshF1 : ∀ j, st.filt_indx ≤ j →
        ∀ p ∈ st.products ++ (TDP_STR st.det_indx, (⟨"", []⟩ : Entry)) :: [], p.1 ≠ FP_STR j := by
      intro j hj p hp
      rcases List.mem_append.mp hp with h | h
      · exact hfreshF j hj p h
      · rw [List.mem_singleton.mp h]
        exact fun hc => FP_ne_TDP j st.det_indx hc.symm
    rw [parseFilters_eq ftree (TDP_STR st.det_indx) st.products [] ⟨"", []⟩ _ rfl hpair1
      hfreshS1 hfreshF1 (hsp ftree (List.mem_cons_self ftree rest))]
    have hbind : ∀ (a : PState) (f : PState → Except PyErr PState), (Except.ok a >>= f) = f a :=
      fun a f => rfl
    rw [hbind]
    dsimp only [List.nil_append]
    have hftD : leafFT (st.det_indx + 1) st.prev_det_indx st.filetype ftree.flatten =
        detFT st.filetype ftree := by
      unfold detFT
      cases hf : ftree.flatten with
      | nil => simp [leafFT]
      | cons e l =>
        simp only [leafFT]
        rw [if_pos]
        omega
    rw [hftD, updTD_empty]
    have hmem3 : ∀ (a : Entry) (ftx : String) (p : String × Entry),
        p ∈ st.products ++ (TDP_STR st.det_indx, a) :: canonFilts ftx st.filt_indx st.sep_indx ftree →
        p ∈ st.products ∨ p = (TDP_STR st.det_indx, a) ∨
          p ∈ canonFilts ftx st.filt_indx st.sep_indx ftree := by
      intro a ftx p hp
      simp only [List.mem_append, List.mem_cons] at hp
      tauto
    have hfreshS2 : ∀ (a : Entry) (ftx : String), ∀ k, st.sep_indx + ftree.flatten.length ≤ k →
        ∀ p ∈ st.products ++ (TDP_STR st.det_indx, a) :: canonFilts ftx st.filt_indx st.sep_indx ftree,
          p.1 ≠ SEP_STR k := by
      intro a ftx k hk p hp
      rcases hmem3 a ftx p hp with h | h | h
      · exact hfreshS k (by omega) p h
      · rw [h]
        exact fun hc => SEP_ne_TDP k st.det_indx hc.symm
      · rcases canonFilts_keys ftx ftree st.filt_indx st.sep_indx p h with
          ⟨x, _, _, h3⟩ | ⟨b, _, h2, h3⟩
        · rw [h3]
          exact fun hc => SEP_ne_FP k x hc.symm
        · rw [h3]
          intro hc
          have := SEP_STR_inj hc
          omega
    have hfreshF2 : ∀ (a : Entry) (ftx : String), ∀ j, st.filt_indx + ftree.length ≤ j →
        ∀ p ∈ st.products ++ (TDP_STR st.det_indx, a) :: canonFilts ftx st.filt_indx st.sep_indx ftree,
          p.1 ≠ FP_STR j := by
      intro a ftx j hj p hp
      rcases hmem3 a ftx p hp with h | h | h
      · exact hfreshF j (by omega) p h
      · rw [h]
        exact fun hc => FP_ne_TDP j st.det_indx hc.symm
      · rcases canonFilts_keys ftx ftree st.filt_indx st.sep_indx p h with
          ⟨x, _, h2, h3⟩ | ⟨b, _, _, h3⟩
        · rw [h3]
          intro hc
          have := FP_STR_inj hc
          omega
        · rw [h3]
          exact SEP_ne_FP b j
    have hfreshT2 : ∀ (a : Entry) (ftx : String), ∀ i, st.det_indx + 1 ≤ i →
        ∀ p ∈ st.products ++ (TDP_STR st.det_indx, a) :: canonFilts ftx st.filt_indx st.sep_indx ftree,
          p.1 ≠ TDP_STR i := by
      intro a ftx i hi p hp
      rcases hmem3 a ftx p hp with h | h | h
      · exact hfreshT i (by omega) p h
      · rw [h]
        intro hc
        have := TDP_STR_inj hc
        omega
      · rcases canonFilts_keys ftx ftree st.filt_indx st.sep_indx p h with
          ⟨x, _, _, h3⟩ | ⟨b, _, _, h3⟩
        · rw [h3]
          exact FP_ne_TDP x i
        · rw [h3]
          exact SEP_ne_TDP b i
    have hpair2 : ∀ (a : Entry) (ftx : String),
        (st.products ++ (TDP_STR st.det_indx, a) ::
          canonFilts ftx st.filt_indx st.sep_indx ftree).Pairwise (fun p q => p.1 ≠ q.1) := by
      intro a ftx
      refine pairwise_append_new _ _ hpair ?_ ?_
      · refine List.Pairwise.cons ?_ (canonFilts_pairwise ftx ftree st.filt_indx st.sep_indx)
        intro q hq
        rcases canonFilts_keys ftx ftree st.filt_indx st.sep_indx q hq with
          ⟨x, _, _, h3⟩ | ⟨b, _, _, h3⟩
        · rw [h3]
          exact fun hc => FP_ne_TDP x st.det_indx hc.symm
        · rw [h3]
          exact fun hc => SEP_ne_TDP b st.det_indx hc.symm
      · intro p hp q hq
        rcases List.mem_cons.mp hq with rfl | hq
        · exact htdpfresh p hp
        · rcases canonFilts_keys ftx ftree st.filt_indx st.sep_indx q hq with
            ⟨x, h1, _, h3⟩ | ⟨b, h1, _, h3⟩
          · rw [h3]
            exact hfreshF x h1 p hp
          · rw [h3]
            exact hfreshS b h1 p hp
    obtain ⟨p3, f3, heq3, hle3⟩ := ih
      { products := st.products ++ (TDP_STR st.det_indx,
            canonDetEntry (detFT st.filetype ftree) ftree) ::
          canonFilts (detFT st.filetype ftree) st.filt_indx st.sep_indx ftree,
        prev_det_indx := (match ftree.flatten with
          | [] => st.prev_det_indx
          | _ :: _ => st.det_indx + 1),
        det_indx := st.det_indx + 1,
        filt_indx := st.filt_indx + ftree.length,
        sep_indx := st.sep_indx + ftree.flatten.length,
        filetype := detFT st.filetype ftree }
      (hpair2 _ _) (hfreshS2 _ _) (hfreshF2 _ _) (hfreshT2 _ _)
      (by
        cases hf : ftree.flatten with
        | nil =>
          simp only [hf]
          omega
        | cons e l =>
          simp only [hf]
          omega)
      (fun d hd => hsp d (List.mem_cons_of_mem ftree hd))
    refine ⟨p3, f3, ?_, ?_⟩
    · rw [heq3]
      dsimp only
      simp only [canonDets, List.cons_append, List.append_assoc, List.length_cons,
        List.map_cons, List.sum_cons]
      simp
      omega
    · dsimp only at hle3 ⊢
      simp only [List.length_cons] at hle3 ⊢
      omega

theorem parse_obset_tree_canonical (t : List (List Leaf)) (h : NoBlank t) :
    parse_obset_tree t = Except.ok (canonDets "" 0 0 0 t) := by
  unfold parse_obset_tree
  obtain ⟨p, f, heq, _⟩ := parseDetectors_eq t ⟨[], 0, 0, 0, 0, ""⟩
    List.Pairwise.nil
    (fun k _ p hp => absurd hp (List.not_mem_nil p))
    (fun j _ p hp => absurd hp (List.not_mem_nil p))
    (fun i _ p hp => absurd hp (List.not_mem_nil p))
    (Nat.le_refl 0)
    h
  rw [heq]
  rfl

-- ### Extracting the keys of one product category from the output

/-- The entries of the output whose key starts with the given category
phrase. -/
def entriesWithPhrase (phrase : String) (ps : Products) : Products :=
  ps.filter (fun p => phrase.data.isPrefixOf p.1.data)

/-- The keys of the output that start with the given category phrase, in
output order. -/
def keysWithPhrase (phrase : String) (ps : Products) : List String :=
  (entriesWithPhrase phrase ps).map Prod.fst

theorem isPre_head_ne {a b : Char} (as bs : List Char) (h : (a == b) = false) :
    (a :: as).isPrefixOf (b :: bs) = false := by
  simp only [List.isPrefixOf, h, Bool.false_and]

theorem isPre_append_self (l₁ l₂ : List Char) : l₁.isPrefixOf (l₁ ++ l₂) = true := by
  simp only [List.isPrefixOf_iff_prefix]
  exact List.prefix_append l₁ l₂

theorem phrase_space_data (phrase phraseSp : String)
    (h : phraseSp.data = phrase.data ++ [' ']) (x : String) :
    (phraseSp ++ x).data = phrase.data ++ (' ' :: x.data) := by
  rw [String.data_append, h, List.append_assoc]
  rfl

theorem tdPre_TDP (n : Nat) :
    ("total detection product" : String).data.isPrefixOf ((TDP_STR n).data) = true := by
  have h1 : (TDP_STR n).data =
      ("total detection product" : String).data ++ (' ' :: (format02 n).data) :=
    phrase_space_data _ _ (by decide) _
  rw [h1]
  exact isPre_append_self _ _

theorem fpPre_FP (n : Nat) :
    ("filter product" : String).data.isPrefixOf ((FP_STR n).data) = true := by
  have h1 : (FP_STR n).data =
      ("filter product" : String).data ++ (' ' :: (format02 n).data) :=
    phrase_space_data _ _ (by decide) _
  rw [h1]
  exact isPre_append_self _ _

theorem sepPre_SEP (n : Nat) :
    ("single exposure product" : String).data.isPrefixOf ((SEP_STR n).data) = true := by
  have h1 : (SEP_STR n).data =
      ("single exposure product" : String).data ++ (' ' :: (format02 n).data) :=
    phrase_space_data _ _ (by decide) _
  rw [h1]
  exact isPre_append_self _ _

theorem tdPre_FP (n : Nat) :
    ("total detection product" : String).data.isPrefixOf ((FP_STR n).data) = false := by
  rw [show ("total detection product" : String).data =
      't' :: ("otal detection product" : String).data from rfl,
    show (FP_STR n).data = 'f' :: (("ilter product " : String).data ++ (format02 n).data) from rfl]
  exact isPre_head_ne _ _ (by decide)

theorem tdPre_SEP (n : Nat) :
    ("total detection product" : String).data.isPrefixOf ((SEP_STR n).data) = false := by
  rw [show ("total detection product" : String).data =
      't' :: ("otal detection product" : String).data from rfl,
    show (SEP_STR n).data =
      's' :: (("ingle exposure product " : String).data ++ (format02 n).data) from rfl]
  exact isPre_head_ne _ _ (by decide)

theorem fpPre_TDP (n : Nat) :
    ("filter product" : String).data.isPrefixOf ((TDP_STR n).data) = false := by
  rw [show ("filter product" : String).data = 'f' :: ("ilter product" : String).data from rfl,
    show (TDP_STR n).data =
      't' :: (("otal detection product " : String).data ++ (format02 n).data) from rfl]
  exact isPre_head_ne _ _ (by decide)

theorem fpPre_SEP (n : Nat) :
    ("filter product" : String).data.isPrefixOf ((SEP_STR n).data) = false := by
  rw [show ("filter product" : String).data = 'f' :: ("ilter product" : String).data from rfl,
    show (SEP_STR n).data =
      's' :: (("ingle exposure product " : String).data ++ (format02 n).data) from rfl]
  exact isPre_head_ne _ _ (by decide)

theorem sepPre_TDP (n : Nat) :
    ("single exposure product" : String).data.isPrefixOf ((TDP_STR n).data) = false := by
  rw [show ("single exposure product" : String).data =
      's' :: ("ingle exposure product" : String).data from rfl,
    show (TDP_STR n).data =
      't' :: (("otal detection product " : String).data ++ (format02 n).data) from rfl]
  exact isPre_head_ne _ _ (by decide)

theorem sepPre_FP (n : Nat) :
    ("single exposure product" : String).data.isPrefixOf ((FP_STR n).data) = false := by
  rw [show ("single exposure product" : String).data =
      's' :: ("ingle exposure product" : String).data from rfl,
    show (FP_STR n).data = 'f' :: (("ilter product " : String).data ++ (format02 n).data) from rfl]
  exact isPre_head_ne _ _ (by decide)


theorem bfalse {b : Bool} (h : b = false) : ¬(b = true) := by
  rw [h]
  exact Bool.false_ne_true

theorem entries_filter_nil (phrase : String) (ps : Products)
    (h : ∀ p ∈ ps, phrase.data.isPrefixOf p.1.data = false) :
    entriesWithPhrase phrase ps = [] := by
  unfold entriesWithPhrase
  induction ps with
  | nil => rfl
  | cons p rest ih =>
    rw [List.filter_cons, if_neg (bfalse (h p (List.mem_cons_self p rest)))]
    exact ih (fun q hq => h q (List.mem_cons_of_mem p hq))

theorem canonSeps_map_fst (ft : String) (leaf : Leaf) :
    ∀ k, (canonSeps ft k leaf).map Prod.fst = (List.range' k leaf.length).map SEP_STR := by
  induction leaf with
  | nil => intro k; rfl
  | cons e rest ih =>
    intro k
    rw [canonSeps, List.map_cons, List.length_cons, List.range'_succ, List.map_cons, ih (k + 1)]

theorem canonSeps_files (ft : String) (leaf : Leaf) :
    ∀ k, (canonSeps ft k leaf).map (fun p => p.2.files) = leaf.map (fun e => [e.2]) := by
  induction leaf with
  | nil => intro k; rfl
  | cons e rest ih =>
    intro k
    rw [canonSeps, List.map_cons, List.map_cons, ih (k + 1)]

theorem entries_td_canonSeps (ft : String) (leaf : Leaf) (k : Nat) :
    entriesWithPhrase "total detection product" (canonSeps ft k leaf) = [] := by
  refine entries_filter_nil _ _ ?_
  intro p hp
  obtain ⟨i, _, _, h3⟩ := canonSeps_keys ft leaf k p hp
  rw [h3]
  exact tdPre_SEP i

theorem entries_fp_canonSeps (ft : String) (leaf : Leaf) (k : Nat) :
    entriesWithPhrase "filter product" (canonSeps ft k leaf) = [] := by
  refine entries_filter_nil _ _ ?_
  intro p hp
  obtain ⟨i, _, _, h3⟩ := canonSeps_keys ft leaf k p hp
  rw [h3]
  exact fpPre_SEP i

theorem entries_sep_canonSeps (ft : String) (leaf : Leaf) :
    ∀ k, entriesWithPhrase "single exposure product" (canonSeps ft k leaf) = canonSeps ft k leaf := by
  induction leaf with
  | nil => intro k; rfl
  | cons e rest ih =>
    intro k
    unfold entriesWithPhrase at ih ⊢
    rw [canonSeps, List.filter_cons, if_pos (sepPre_SEP _)]
    rw [ih (k + 1)]

theorem entries_td_canonFilts (ft : String) (leaves : List Leaf) :
    ∀ j k, entriesWithPhrase "total detection product" (canonFilts ft j k leaves) = [] := by
  induction leaves with
  | nil => intro j k; rfl
  | cons leaf rest ih =>
    intro j k
    unfold entriesWithPhrase at ih ⊢
    rw [canonFilts, List.filter_cons, if_neg (bfalse (tdPre_FP _)), List.filter_append]
    have h1 := entries_td_canonSeps ft leaf k
    unfold entriesWithPhrase at h1
    rw [h1, ih (j + 1) (k + leaf.length)]
    rfl

theorem entries_fp_canonFilts_map_fst (ft : String) (leaves : List Leaf) :
    ∀ j k, (entriesWithPhrase "filter product" (canonFilts ft j k leaves)).map Prod.fst =
      (List.range' j leaves.length).map FP_STR := by
  induction leaves with
  | nil => intro j k; rfl
  | cons leaf rest ih =>
    intro j k
    unfold entriesWithPhrase at ih ⊢
    rw [canonFilts, List.filter_cons, if_pos (fpPre_FP _), List.filter_append]
    have h1 := entries_fp_canonSeps ft leaf k
    unfold entriesWithPhrase at h1
    rw [h1]
    simp only [List.nil_append, List.map_cons, List.length_cons]
    rw [List.range'_succ, List.map_cons, ih (j + 1) (k + leaf.length)]

theorem entries_fp_canonFilts_files (ft : String) (leaves : List Leaf) :
    ∀ j k, (entriesWithPhrase "filter product" (canonFilts ft j k leaves)).map
        (fun p => p.2.files) =
      leaves.map (fun leaf => leaf.map Prod.snd) := by
  induction leaves with
  | nil => intro j k; rfl
  | cons leaf rest ih =>
    intro j k
    unfold entriesWithPhrase at ih ⊢
    rw [canonFilts, List.filter_cons, if_pos (fpPre_FP _), List.filter_append]
    have h1 := entries_fp_canonSeps ft leaf k
    unfold entriesWithPhrase at h1
    rw [h1]
    simp only [List.nil_append, List.map_cons]
    rw [ih (j + 1) (k + leaf.length)]
    rfl

theorem entries_sep_canonFilts_map_fst (ft : String) (leaves : List Leaf) :
    ∀ j k, (entriesWithPhrase "single exposure product" (canonFilts ft j k leaves)).map Prod.fst =
      (List.range' k leaves.flatten.length).map SEP_STR := by
  induction leaves with
  | nil => intro j k; rfl
  | cons leaf rest ih =>
    intro j k
    unfold entriesWithPhrase at ih ⊢
    rw [canonFilts, List.filter_cons, if_neg (bfalse (sepPre_FP _)), List.filter_append]
    have h1 := entries_sep_canonSeps ft leaf k
    unfold entriesWithPhrase at h1
    rw [h1, List.map_append, ih (j + 1) (k + leaf.length)]
    rw [canonSeps_map_fst]
    rw [show (leaf :: rest).flatten.length = leaf.length + rest.flatten.length from by
      simp [List.flatten_cons]]
    rw [← List.map_append, List.range'_append_1]
    rw [Nat.add_comm rest.flatten.length leaf.length]

theorem entries_sep_canonFilts_files (ft : String) (leaves : List Leaf) :
    ∀ j k, (entriesWithPhrase "single exposure product" (canonFilts ft j k leaves)).map
        (fun p => p.2.files) =
      leaves.flatten.map (fun e => [e.2]) := by
  induction leaves with
  | nil => intro j k; rfl
  | cons leaf rest ih =>
    intro j k
    unfold entriesWithPhrase at ih ⊢
    rw [canonFilts, List.filter_cons, if_neg (bfalse (sepPre_FP _)), List.filter_append]
    have h1 := entries_sep_canonSeps ft leaf k
    unfold entriesWithPhrase at h1
    rw [h1, List.map_append, ih (j + 1) (k + leaf.length)]
    rw [canonSeps_files, List.flatten_cons, List.map_append]

theorem entries_td_canonDets_map_fst (dets : List (List Leaf)) :
    ∀ ft0 m j k, (entriesWithPhrase "total detection product"
        (canonDets ft0 m j k dets)).map Prod.fst =
      (List.range' m dets.length).map TDP_STR := by
  induction dets with
  | nil => intro ft0 m j k; rfl
  | cons ftree rest ih =>
    intro ft0 m j k
    unfold entriesWithPhrase at ih ⊢
    rw [canonDets, List.filter_cons, if_pos (tdPre_TDP _), List.filter_append]
    have h1 := entries_td_canonFilts (detFT ft0 ftree) ftree j k
    unfold entriesWithPhrase at h1
    rw [h1]
    simp only [List.nil_append, List.map_cons, List.length_cons]
    rw [List.range'_succ, List.map_cons, ih (detFT ft0 ftree) (m + 1) (j + ftree.length)
      (k + ftree.flatten.length)]

theorem entries_td_canonDets_files (dets : List (List Leaf)) :
    ∀ ft0 m j k, (entriesWithPhrase "total detection product"
        (canonDets ft0 m j k dets)).map (fun p => p.2.files) =
      dets.map (fun d => d.flatten.map Prod.snd) := by
  induction dets with
  | nil => intro ft0 m j k; rfl
  | cons ftree rest ih =>
    intro ft0 m j k
    unfold entriesWithPhrase at ih ⊢
    rw [canonDets, List.filter_cons, if_pos (tdPre_TDP _), List.filter_append]
    have h1 := entries_td_canonFilts (detFT ft0 ftree) ftree j k
    unfold entriesWithPhrase at h1
    rw [h1]
    simp only [List.nil_append, List.map_cons]
    rw [ih (detFT ft0 ftree) (m + 1) (j + ftree.length) (k + ftree.flatten.length)]
    rfl

theorem entries_fp_canonDets_map_fst (dets : List (List Leaf)) :
    ∀ ft0 m j k, (entriesWithPhrase "filter product"
        (canonDets ft0 m j k dets)).map Prod.fst =
      (List.range' j dets.flatten.length).map FP_STR := by
  induction dets with
  | nil => intro ft0 m j k; rfl
  | cons ftree rest ih =>
    intro ft0 m j k
    unfold entriesWithPhrase at ih ⊢
    rw [canonDets, List.filter_cons, if_neg (bfalse (fpPre_TDP _)), List.filter_append,
      List.map_append]
    have h1 := entries_fp_canonFilts_map_fst (detFT ft0 ftree) ftree j k
    unfold entriesWithPhrase at h1
    rw [h1, ih (detFT ft0 ftree) (m + 1) (j + ftree.length) (k + ftree.flatten.length)]
    rw [show (ftree :: rest).flatten.length = ftree.length + rest.flatten.length from by
      simp [List.flatten_cons]]
    rw [← List.map_append, List.range'_append_1]
    rw [Nat.add_comm rest.flatten.length ftree.length]

theorem entries_fp_canonDets_files (dets : List (List Leaf)) :
    ∀ ft0 m j k, (entriesWithPhrase "filter product"
        (canonDets ft0 m j k dets)).map (fun p => p.2.files) =
      dets.flatten.map (fun leaf => leaf.map Prod.snd) := by
  induction dets with
  | nil => intro ft0 m j k; rfl
  | cons ftree rest ih =>
    intro ft0 m j k
    unfold entriesWithPhrase at ih ⊢
    rw [canonDets, List.filter_cons, if_neg (bfalse (fpPre_TDP _)), List.filter_append,
      List.map_append]
    have h1 := entries_fp_canonFilts_files (detFT ft0 ftree) ftree j k
    unfold entriesWithPhrase at h1
    rw [h1, ih (detFT ft0 ftree) (m + 1) (j + ftree.length) (k + ftree.flatten.length)]
    rw [List.flatten_cons, List.map_append]

theorem entries_sep_canonDets_map_fst (dets : List (List Leaf)) :
    ∀ ft0 m j k, (entriesWithPhrase "single exposure product"
        (canonDets ft0 m j k dets)).map Prod.fst =
      (List.range' k dets.flatten.flatten.length).map SEP_STR := by
  induction dets with
  | nil => intro ft0 m j k; rfl
  | cons ftree rest ih =>
    intro ft0 m j k
    unfold entriesWithPhrase at ih ⊢
    rw [canonDets, List.filter_cons, if_neg (bfalse (sepPre_TDP _)), List.filter_append,
      List.map_append]
    have h1 := entries_sep_canonFilts_map_fst (detFT ft0 ftree) ftree j k
    unfold entriesWithPhrase at h1
    rw [h1, ih (detFT ft0 ftree) (m + 1) (j + ftree.length) (k + ftree.flatten.length)]
    rw [show (ftree :: rest).flatten.flatten.length =
        ftree.flatten.length + rest.flatten.flatten.length from by
      simp [List.flatten_cons]]
    rw [← List.map_append, List.range'_append_1]
    rw [Nat.add_comm rest.flatten.flatten.length ftree.flatten.length]

theorem entries_sep_canonDets_files (dets : List (List Leaf)) :
    ∀ ft0 m j k, (entriesWithPhrase "single exposure product"
        (canonDets ft0 m j k dets)).map (fun p => p.2.files) =
      dets.flatten.flatten.map (fun e => [e.2]) := by
  induction dets with
  | nil => intro ft0 m j k; rfl
  | cons ftree rest ih =>
    intro ft0 m j k
    unfold entriesWithPhrase at ih ⊢
    rw [canonDets, List.filter_cons, if_neg (bfalse (sepPre_TDP _)), List.filter_append,
      List.map_append]
    have h1 := entries_sep_canonFilts_files (detFT ft0 ftree) ftree j k
    unfold entriesWithPhrase at h1
    rw [h1, ih (detFT ft0 ftree) (m + 1) (j + ftree.length) (k + ftree.flatten.length)]
    rw [List.flatten_cons, List.flatten_append, List.map_append]

theorem countP_mem_one {α : Type} [DecidableEq α] (L : List (List α)) (x : α)
    (hx : x ∈ L.flatten) (hnd : L.flatten.Nodup) :
    L.countP (fun l => decide (x ∈ l)) = 1 := by
  induction L with
  | nil => cases hx
  | cons l rest ih =>
    rw [List.flatten_cons] at hx hnd
    rw [List.nodup_append] at hnd
    obtain ⟨hnl, hnr, hdisj⟩ := hnd
    by_cases hxl : x ∈ l
    · rw [List.countP_cons, if_pos (by simpa using hxl)]
      have hzero : rest.countP (fun l => decide (x ∈ l)) = 0 := by
        rw [List.countP_eq_zero]
        intro a ha
        simp only [decide_eq_true_eq]
        intro hxa
        exact hdisj hxl (List.mem_flatten.mpr ⟨a, ha, hxa⟩)
      omega
    · rw [List.countP_cons, if_neg (by simpa using hxl)]
      have hxr : x ∈ rest.flatten := by
        rcases List.mem_append.mp hx with h | h
        · exact absurd h hxl
        · exact h
      rw [ih hxr hnr]

-- ### Claim C5: entry counts and gapless global sequence numbers

/-- Claim C5: for every grouping structure with D detectors, F leaf groups
and N exposures whose info strings are not whitespace-only, the parser output
has exactly D total detection keys, F filter keys and N single exposure keys,
carrying the zero-padded sequence numbers 0 to D-1, 0 to F-1 and 0 to N-1 in
order, gapless, never reused, with each counter global across detectors. -/
theorem parse_obset_tree_counts (t : List (List Leaf)) (h : NoBlank t) :
    ∃ ps, parse_obset_tree t = Except.ok ps ∧
      keysWithPhrase "total detection product" ps = (List.range t.length).map TDP_STR ∧
      keysWithPhrase "filter product" ps = (List.range t.flatten.length).map FP_STR ∧
      keysWithPhrase "single exposure product" ps =
        (List.range t.flatten.flatten.length).map SEP_STR := by
  refine ⟨canonDets "" 0 0 0 t, parse_obset_tree_canonical t h, ?_, ?_, ?_⟩
  · unfold keysWithPhrase
    rw [entries_td_canonDets_map_fst, List.range_eq_range']
  · unfold keysWithPhrase
    rw [entries_fp_canonDets_map_fst, List.range_eq_range']
  · unfold keysWithPhrase
    rw [entries_sep_canonDets_map_fst, List.range_eq_range']

/-- Witness for claim C5 at a concrete two-detector grouping structure. -/
theorem parse_obset_tree_counts_witness :
    ∃ ps, parse_obset_tree
        [[[("11150 70 WFC3 IR F110W IA1S70JTQ", "ia1s70jtq_flt.fits")],
          [("11150 70 WFC3 IR F160W IA1S70JWQ", "ia1s70jwq_flt.fits"),
           ("11150 70 WFC3 IR F160W IA1S70JXQ", "ia1s70jxq_flc.fits")]],
         [[("11150 70 WFC3 UVIS F275W IA1S70JYQ", "ia1s70jyq_flc.fits")]]] = Except.ok ps ∧
      keysWithPhrase "total detection product" ps = (List.range 2).map TDP_STR ∧
      keysWithPhrase "filter product" ps = (List.range 3).map FP_STR ∧
      keysWithPhrase "single exposure product" ps = (List.range 4).map SEP_STR :=
  parse_obset_tree_counts
    [[[("11150 70 WFC3 IR F110W IA1S70JTQ", "ia1s70jtq_flt.fits")],
      [("11150 70 WFC3 IR F160W IA1S70JWQ", "ia1s70jwq_flt.fits"),
       ("11150 70 WFC3 IR F160W IA1S70JXQ", "ia1s70jxq_flc.fits")]],
     [[("11150 70 WFC3 UVIS F275W IA1S70JYQ", "ia1s70jyq_flc.fits")]]]
    (by unfold NoBlank; decide)

-- ### Claim C6: file lists of the three product categories

theorem flatten_map_singleton {α β : Type} (f : α → β) (l : List α) :
    (l.map (fun e => [f e])).flatten = l.map f := by
  induction l with
  | nil => rfl
  | cons x rest ih => simp [ih]

/-- Claim C6: the single exposure entries carry exactly one filename each, the
filter entries accumulate exactly their leaf group filenames in manifest
order, the total detection entries accumulate exactly their detector
filenames in manifest order, with no deduplication or reordering; and when
the filenames are pairwise distinct, every filename occurs in the files of
exactly one entry of each of the three categories. -/
theorem parse_obset_tree_files (t : List (List Leaf)) (h : NoBlank t)
    (hnd : (t.flatten.flatten.map Prod.snd).Nodup) :
    ∃ ps, parse_obset_tree t = Except.ok ps ∧
      (entriesWithPhrase "single exposure product" ps).map (fun p => p.2.files) =
        t.flatten.flatten.map (fun e => [e.2]) ∧
      (entriesWithPhrase "filter product" ps).map (fun p => p.2.files) =
        t.flatten.map (fun leaf => leaf.map Prod.snd) ∧
      (entriesWithPhrase "total detection product" ps).map (fun p => p.2.files) =
        t.map (fun d => d.flatten.map Prod.snd) ∧
      ∀ fn ∈ t.flatten.flatten.map Prod.snd,
        ((entriesWithPhrase "single exposure product" ps).filter
          (fun p => decide (fn ∈ p.2.files))).length = 1 ∧
        ((entriesWithPhrase "filter product" ps).filter
          (fun p => decide (fn ∈ p.2.files))).length = 1 ∧
        ((entriesWithPhrase "total detection product" ps).filter
          (fun p => decide (fn ∈ p.2.files))).length = 1 := by
  refine ⟨canonDets "" 0 0 0 t, parse_obset_tree_canonical t h,
    entries_sep_canonDets_files t "" 0 0 0,
    entries_fp_canonDets_files t "" 0 0 0,
    entries_td_canonDets_files t "" 0 0 0, ?_⟩
  intro fn hfn
  have hcount : ∀ (es : Products) (L : List (List String)),
      es.map (fun p => p.2.files) = L → fn ∈ L.flatten → L.flatten.Nodup →
      (es.filter (fun p => decide (fn ∈ p.2.files))).length = 1 := by
    intro es L hmapL hmem hnodup
    rw [← List.countP_eq_length_filter]
    have h1 : L.countP (fun l => decide (fn ∈ l)) = 1 := countP_mem_one L fn hmem hnodup
    rw [← hmapL] at h1
    rw [List.countP_map] at h1
    simpa using h1
  refine ⟨?_, ?_, ?_⟩
  · refine hcount _ _ (entries_sep_canonDets_files t "" 0 0 0) ?_ ?_
    · rw [flatten_map_singleton]
      exact hfn
    · rw [flatten_map_singleton]
      exact hnd
  · refine hcount _ _ (entries_fp_canonDets_files t "" 0 0 0) ?_ ?_
    · rw [← List.map_flatten]
      exact hfn
    · rw [← List.map_flatten]
      exact hnd
  · refine hcount _ _ (entries_td_canonDets_files t "" 0 0 0) ?_ ?_
    · rw [show (t.map (fun d => d.flatten.map Prod.snd)).flatten =
          t.flatten.flatten.map Prod.snd from ?_]
      · exact hfn
      · rw [show t.map (fun d => d.flatten.map Prod.snd) =
            (t.map List.flatten).map (List.map Prod.snd) from by rw [List.map_map]; rfl]
        rw [← List.map_flatten, ← List.flatten_flatten]
    · rw [show (t.map (fun d => d.flatten.map Prod.snd)).flatten =
          t.flatten.flatten.map Prod.snd from ?_]
      · exact hnd
      · rw [show t.map (fun d => d.flatten.map Prod.snd) =
            (t.map List.flatten).map (List.map Prod.snd) from by rw [List.map_map]; rfl]
        rw [← List.map_flatten, ← List.flatten_flatten]

-- ### Claim C2: filetype detection on the first detector

theorem sep_head_mem_canonFilts (ft : String) (leaves : List Leaf) (e : String × String)
    (tl : Leaf) :
    ∀ j k, leaves.flatten = e :: tl →
      (SEP_STR k, (⟨pyLower (e.1 ++ " " ++ ft), [e.2]⟩ : Entry)) ∈ canonFilts ft j k leaves := by
  induction leaves with
  | nil =>
    intro j k hf
    simp at hf
  | cons leaf rest ih =>
    intro j k hf
    cases leaf with
    | nil =>
      rw [List.flatten_cons, List.nil_append] at hf
      rw [canonFilts]
      refine List.mem_cons_of_mem _ ?_
      rw [canonSeps]
      simp only [List.nil_append, List.length_nil, Nat.add_zero]
      exact ih (j + 1) k hf
    | cons e0 l0 =>
      rw [List.flatten_cons, List.cons_append] at hf
      have he : e0 = e := (List.cons.injEq _ _ _ _).mp hf |>.1
      subst he
      rw [canonFilts]
      refine List.mem_cons_of_mem _ (List.mem_append_left _ ?_)
      rw [canonSeps]
      exact List.mem_cons_self _ _

/-- Claim C2 counterexample: on a one-detector grouping structure the
filetype detection fires for the first detector as well, because det_indx is
incremented to one before the comparison with prev_det_indx zero, so the first
single exposure info ends in the detected drz rather than in the empty
initial filetype the claim asserts. -/
theorem parse_obset_tree_first_detector_counterexample :
    parse_obset_tree [[[("A B C D", "ia1s70jtq_flt.fits")]]] =
      Except.ok [("total detection product 00",
          ⟨"a b d drz", ["ia1s70jtq_flt.fits"]⟩),
        ("filter product 00", ⟨"a b c d drz", ["ia1s70jtq_flt.fits"]⟩),
        ("single exposure product 00", ⟨"a b c d drz", ["ia1s70jtq_flt.fits"]⟩)] ∧
    pyLower ("A B C D" ++ " " ++ "") ≠ "a b c d drz" :=
  ⟨rfl, by decide⟩

/-- Claim C2 amended: the filetype detection fires on the first exposure of
every detector, including the first, since the detector index has already been
incremented past the previous index when the first exposure is processed; the
filetype appended to the first detector's first single exposure entry is the
one detected from its filename (drz when characters 10 to 13 lowercased end
with flt, drc otherwise) and is never the empty string. -/
theorem parse_obset_tree_first_detector_filetype (ftree : List Leaf)
    (rest : List (List Leaf)) (e : String × String) (tl : Leaf)
    (h : NoBlank (ftree :: rest)) (hflat : ftree.flatten = e :: tl) :
    ∃ ps, parse_obset_tree (ftree :: rest) = Except.ok ps ∧
      (SEP_STR 0, (⟨pyLower (e.1 ++ " " ++ detectFT e.2), [e.2]⟩ : Entry)) ∈ ps ∧
      detectFT e.2 ≠ "" := by
  refine ⟨_, parse_obset_tree_canonical _ h, ?_, ?_⟩
  · rw [canonDets]
    refine List.mem_cons_of_mem _ (List.mem_append_left _ ?_)
    have hdet : detFT "" ftree = detectFT e.2 := by
      unfold detFT
      rw [hflat]
    rw [hdet]
    exact sep_head_mem_canonFilts _ ftree e tl 0 0 hflat
  · unfold detectFT
    split <;> decide

/-- Witness for the amended claim C2 at a concrete one-detector structure. -/
theorem parse_obset_tree_first_detector_filetype_witness :
    ∃ ps, parse_obset_tree [[[("A B C D", "ia1s70jtq_flt.fits")]]] = Except.ok ps ∧
      (SEP_STR 0, (⟨pyLower ("A B C D" ++ " " ++ detectFT "ia1s70jtq_flt.fits"),
        ["ia1s70jtq_flt.fits"]⟩ : Entry)) ∈ ps ∧
      detectFT "ia1s70jtq_flt.fits" ≠ "" :=
  parse_obset_tree_first_detector_filetype [[("A B C D", "ia1s70jtq_flt.fits")]] []
    ("A B C D", "ia1s70jtq_flt.fits") [] (by unfold NoBlank; decide) rfl

/-- Witness for claim C6 at a concrete two-detector grouping structure with
distinct filenames. -/
theorem parse_obset_tree_files_witness :
    ∃ ps, parse_obset_tree
        [[[("11150 70 WFC3 IR F110W IA1S70JTQ", "ia1s70jtq_flt.fits")],
          [("11150 70 WFC3 IR F160W IA1S70JWQ", "ia1s70jwq_flt.fits"),
           ("11150 70 WFC3 IR F160W IA1S70JXQ", "ia1s70jxq_flc.fits")]],
         [[("11150 70 WFC3 UVIS F275W IA1S70JYQ", "ia1s70jyq_flc.fits")]]] = Except.ok ps ∧
      (entriesWithPhrase "single exposure product" ps).map (fun p => p.2.files) =
        ([[[("11150 70 WFC3 IR F110W IA1S70JTQ", "ia1s70jtq_flt.fits")],
          [("11150 70 WFC3 IR F160W IA1S70JWQ", "ia1s70jwq_flt.fits"),
           ("11150 70 WFC3 IR F160W IA1S70JXQ", "ia1s70jxq_flc.fits")]],
         [[("11150 70 WFC3 UVIS F275W IA1S70JYQ",
           "ia1s70jyq_flc.fits")]]] : List (List Leaf)).flatten.flatten.map (fun e => [e.2]) ∧
      (entriesWithPhrase "filter product" ps).map (fun p => p.2.files) =
        ([[[("11150 70 WFC3 IR F110W IA1S70JTQ", "ia1s70jtq_flt.fits")],
          [("11150 70 WFC3 IR F160W IA1S70JWQ", "ia1s70jwq_flt.fits"),
           ("11150 70 WFC3 IR F160W IA1S70JXQ", "ia1s70jxq_flc.fits")]],
         [[("11150 70 WFC3 UVIS F275W IA1S70JYQ",
           "ia1s70jyq_flc.fits")]]] : List (List Leaf)).flatten.map (fun leaf => leaf.map Prod.snd) ∧
      (entriesWithPhrase "total detection product" ps).map (fun p => p.2.files) =
        ([[[("11150 70 WFC3 IR F110W IA1S70JTQ", "ia1s70jtq_flt.fits")],
          [("11150 70 WFC3 IR F160W IA1S70JWQ", "ia1s70jwq_flt.fits"),
           ("11150 70 WFC3 IR F160W IA1S70JXQ", "ia1s70jxq_flc.fits")]],
         [[("11150 70 WFC3 UVIS F275W IA1S70JYQ",
           "ia1s70jyq_flc.fits")]]] : List (List Leaf)).map (fun d => d.flatten.map Prod.snd) ∧
      ∀ fn ∈ ([[[("11150 70 WFC3 IR F110W IA1S70JTQ", "ia1s70jtq_flt.fits")],
          [("11150 70 WFC3 IR F160W IA1S70JWQ", "ia1s70jwq_flt.fits"),
           ("11150 70 WFC3 IR F160W IA1S70JXQ", "ia1s70jxq_flc.fits")]],
         [[("11150 70 WFC3 UVIS F275W IA1S70JYQ",
           "ia1s70jyq_flc.fits")]]] : List (List Leaf)).flatten.flatten.map Prod.snd,
        ((entriesWithPhrase "single exposure product" ps).filter
          (fun p => decide (fn ∈ p.2.files))).length = 1 ∧
        ((entriesWithPhrase "filter product" ps).filter
          (fun p => decide (fn ∈ p.2.files))).length = 1 ∧
        ((entriesWithPhrase "total detection product" ps).filter
          (fun p => decide (fn ∈ p.2.files))).length = 1 :=
  parse_obset_tree_files
    [[[("11150 70 WFC3 IR F110W IA1S70JTQ", "ia1s70jtq_flt.fits")],
      [("11150 70 WFC3 IR F160W IA1S70JWQ", "ia1s70jwq_flt.fits"),
       ("11150 70 WFC3 IR F160W IA1S70JXQ", "ia1s70jxq_flc.fits")]],
     [[("11150 70 WFC3 UVIS F275W IA1S70JYQ", "ia1s70jyq_flc.fits")]]]
    (by unfold NoBlank; decide) (by decide)

-- ### Helper lemmas for the idempotence of determine_filter_name

/-- Char.ofNat at a valid code point decodes back to the same number. -/
theorem toNat_ofNat_valid (n : Nat) (h : Nat.isValidChar n) :
    (Char.ofNat n).toNat = n := by
  simp [Char.ofNat, h, Char.ofNatAux, Char.toNat, UInt32.toNat]

/-- ASCII lowercasing is a projection: a second application changes nothing. -/
theorem toLower_toLower (c : Char) :
    Char.toLower (Char.toLower c) = Char.toLower c := by
  simp only [Char.toLower]
  by_cases h : c.toNat ≥ 65 ∧ c.toNat ≤ 90
  · rw [if_pos h]
    have hv : Nat.isValidChar (c.toNat + 32) := Or.inl (by omega)
    rw [toNat_ofNat_valid _ hv, if_neg (by omega)]
  · rw [if_neg h, if_neg h]

/-- splitOnChar never returns the empty list of pieces. -/
theorem splitOnChar_ne_nil (sep : Char) (l : List Char) :
    splitOnChar sep l ≠ [] := by
  induction l with
  | nil => simp [splitOnChar]
  | cons c rest ih =>
    unfold splitOnChar
    by_cases hc : c = sep
    · rw [if_pos hc]; simp
    · rw [if_neg hc]
      cases h : splitOnChar sep rest with
      | nil => exact absurd h ih
      | cons w ws => simp

/-- Every character of a piece produced by splitOnChar occurs in the original
list and differs from the separator. -/
theorem splitOnChar_mem (sep : Char) (l : List Char) :
    ∀ w ∈ splitOnChar sep l, ∀ c ∈ w, c ∈ l ∧ c ≠ sep := by
  induction l with
  | nil =>
    intro w hw c hc
    simp [splitOnChar] at hw
    subst hw
    exact absurd hc (List.not_mem_nil c)
  | cons a rest ih =>
    intro w hw c hc
    unfold splitOnChar at hw
    by_cases ha : a = sep
    · rw [if_pos ha] at hw
      rcases List.mem_cons.mp hw with h0 | h0
      · subst h0; exact absurd hc (List.not_mem_nil c)
      · have := ih w h0 c hc
        exact ⟨List.mem_cons_of_mem a this.1, this.2⟩
    · rw [if_neg ha] at hw
      cases hsp : splitOnChar sep rest with
      | nil => exact absurd hsp (splitOnChar_ne_nil sep rest)
      | cons v vs =>
        rw [hsp] at hw
        rcases List.mem_cons.mp hw with h0 | h0
        · subst h0
          rcases List.mem_cons.mp hc with h1 | h1
          · subst h1
            exact ⟨List.mem_cons_self _ _, ha⟩
          · have := ih v (hsp ▸ List.mem_cons_self v vs) c h1
            exact ⟨List.mem_cons_of_mem a this.1, this.2⟩
        · have := ih w (hsp ▸ List.mem_cons_of_mem v h0) c hc
          exact ⟨List.mem_cons_of_mem a this.1, this.2⟩

/-- segIn decides the contiguous-segment (infix) relation. -/
theorem segIn_iff (sub l : List Char) : segIn sub l = true ↔ sub <:+: l := by
  induction l with
  | nil =>
    simp [segIn, List.isEmpty_iff]
  | cons c rest ih =>
    simp [segIn, List.infix_cons_iff, ih]

/-- Every character of a hyphen-join is a hyphen or a character of one of the
joined strings. -/
theorem joinWith_mem (out : List String) :
    ∀ c ∈ (joinWith "-" out).data, c = '-' ∨ ∃ w ∈ out, c ∈ w.data := by
  induction out with
  | nil => intro c hc; exact absurd hc (List.not_mem_nil c)
  | cons s rest ih =>
    cases rest with
    | nil =>
      intro c hc
      exact Or.inr ⟨s, List.mem_cons_self _ _, hc⟩
    | cons r rest2 =>
      intro c hc
      have hj : (joinWith "-" (s :: r :: rest2)).data
          = (s.data ++ ['-']) ++ (joinWith "-" (r :: rest2)).data := rfl
      rw [hj] at hc
      rcases List.mem_append.mp hc with h1 | h1
      · rcases List.mem_append.mp h1 with h2 | h2
        · exact Or.inr ⟨s, List.mem_cons_self _ _, h2⟩
        · left
          simpa using h2
      · rcases ih c h1 with h2 | ⟨w, hwm, hcw⟩
        · exact Or.inl h2
        · exact Or.inr ⟨w, List.mem_cons_of_mem s hwm, hcw⟩

/-- An infix of a list split at a character that does not occur in the infix
lies entirely within one of the two sides. -/
theorem infix_append_cons {needle a b : List Char} {x : Char}
    (hx : x ∉ needle) (h : needle <:+: a ++ x :: b) :
    needle <:+: a ∨ needle <:+: b := by
  obtain ⟨s, t, hst⟩ := h
  by_cases h1 : s.length + needle.length ≤ a.length
  · left
    have hL : (s ++ needle ++ t).take (s.length + needle.length) = s ++ needle := by
      rw [← List.length_append]
      exact List.take_left _ _
    have he : s ++ needle = a.take (s.length + needle.length) := by
      rw [← hL, hst, List.take_append_of_le_length h1]
    have hpre : needle <:+: a.take (s.length + needle.length) :=
      ⟨s, [], by rw [List.append_nil]; exact he⟩
    exact hpre.trans (List.take_prefix _ _).isInfix
  · by_cases h2 : s.length ≤ a.length
    · exfalso
      have hR : (a ++ x :: b)[a.length]? = some x := by
        rw [List.getElem?_append_right (Nat.le_refl _)]
        simp
      have hlen : a.length < (s ++ needle).length := by
        rw [List.length_append]; omega
      have hL2 : (s ++ needle ++ t)[a.length]? = needle[a.length - s.length]? := by
        rw [List.getElem?_append_left hlen, List.getElem?_append_right h2]
      have hsome : needle[a.length - s.length]? = some x := by
        rw [← hL2, hst, hR]
      obtain ⟨hlt, hEq⟩ := List.getElem?_eq_some_iff.mp hsome
      exact hx (hEq ▸ List.getElem_mem hlt)
    · right
      have h3 : a.length + 1 ≤ s.length := by omega
      have hd : (s ++ needle ++ t).drop s.length = needle ++ t := by
        rw [List.append_assoc]
        exact List.drop_left _ _
      have he : needle ++ t = (a ++ x :: b).drop s.length := by
        rw [← hst, hd]
      have hsplit : (a ++ x :: b).drop s.length
          = b.drop (s.length - (a.length + 1)) := by
        rw [show a ++ x :: b = (a ++ [x]) ++ b by simp]
        rw [List.drop_append_eq_append_drop]
        rw [List.drop_eq_nil_iff.mpr (by simp; omega)]
        simp
      have hfin : needle <+: b.drop (s.length - (a.length + 1)) :=
        ⟨t, (he.trans hsplit).symm ▸ rfl⟩
      exact hfin.isInfix.trans (List.drop_suffix _ _).isInfix

/-- Mapping ASCII lowercasing over a list it fixes pointwise is the
identity. -/
theorem map_toLower_fixed (l : List Char) (h : ∀ c ∈ l, Char.toLower c = c) :
    l.map Char.toLower = l := by
  induction l with
  | nil => rfl
  | cons c rest ih =>
    simp only [List.map_cons]
    rw [h c (List.mem_cons_self _ _), ih (fun d hd => h d (List.mem_cons_of_mem c hd))]

/-- pyLower fixes a string all of whose characters are already lowered. -/
theorem pyLower_fixed (u : String) (h : ∀ c ∈ u.data, Char.toLower c = c) :
    pyLower u = u := by
  unfold pyLower
  rw [map_toLower_fixed u.data h]

/-- The substring clear, which contains no hyphen, cannot appear across a
hyphen-join of strings none of which contains it. -/
theorem not_infix_joinWith (needle : List Char) (out : List String)
    (hx : '-' ∉ needle) (hn : needle ≠ [])
    (hw : ∀ w ∈ out, ¬ needle <:+: w.data) :
    ¬ needle <:+: (joinWith "-" out).data := by
  induction out with
  | nil =>
    intro hinf
    exact hn (List.infix_nil.mp hinf)
  | cons s rest ih =>
    cases rest with
    | nil =>
      exact hw s (List.mem_cons_self _ _)
    | cons r rest2 =>
      intro hinf
      have hj : (joinWith "-" (s :: r :: rest2)).data
          = s.data ++ '-' :: (joinWith "-" (r :: rest2)).data := by
        show (s.data ++ ['-']) ++ (joinWith "-" (r :: rest2)).data = _
        simp
      rw [hj] at hinf
      rcases infix_append_cons hx hinf with h1 | h1
      · exact hw s (List.mem_cons_self _ _) h1
      · exact ih (fun w hwm => hw w (List.mem_cons_of_mem s hwm)) h1

/-- A second pass of determine_filter_name fixes any string that is already
lowered, semicolon-free and clear-free. -/
theorem dfn_second_pass (t : String)
    (hA : ';' ∉ t.data) (hB : ∀ c ∈ t.data, Char.toLower c = c)
    (hD : ¬ ("clear".data <:+: t.data)) :
    determine_filter_name t = t := by
  have hcon : strContains t "clear" = false := by
    cases hb : strContains t "clear" with
    | false => rfl
    | true => exact absurd ((segIn_iff "clear".data t.data).mp hb) hD
  have hsplit : pySplitSemi t = [t] := by
    unfold pySplitSemi
    rw [splitOnChar_not_mem ';' t.data hA]
    rfl
  have hfil : ([t].filter (fun filt => !strContains filt "clear")) = [t] := by
    simp [hcon]
  simp only [determine_filter_name]
  rw [pyLower_fixed t hB, hsplit, hfil]
  simp only [List.reverse_singleton, ite_self]
  rfl

/-- The output of determine_filter_name is the literal clear or a hyphen-join
of strings that are semicolon-free, lowered and clear-free. -/
theorem dfn_shape (s : String) :
    determine_filter_name s = "clear" ∨
    ∃ out : List String,
      (∀ w ∈ out, (';' ∉ w.data) ∧ (∀ c ∈ w.data, Char.toLower c = c)
        ∧ ¬ ("clear".data <:+: w.data))
      ∧ determine_filter_name s = joinWith "-" out := by
  have hfacts : ∀ w ∈ (pySplitSemi (pyLower s)).filter (fun filt => !strContains filt "clear"),
      (';' ∉ w.data) ∧ (∀ c ∈ w.data, Char.toLower c = c) ∧ ¬ ("clear".data <:+: w.data) := by
    intro w hwfilt
    have hmem := (List.mem_filter.mp hwfilt).1
    have hkeep := (List.mem_filter.mp hwfilt).2
    have hkeep2 : strContains w "clear" = false := by
      simpa using hkeep
    unfold pySplitSemi at hmem
    obtain ⟨piece, hpiece, hwe⟩ := List.mem_map.mp hmem
    refine ⟨?_, ?_, ?_⟩
    · intro hsemi
      have hch := splitOnChar_mem ';' (pyLower s).data piece hpiece ';'
        (by rw [← hwe] at hsemi; exact hsemi)
      exact hch.2 rfl
    · intro c hc
      have hch := splitOnChar_mem ';' (pyLower s).data piece hpiece c
        (by rw [← hwe] at hc; exact hc)
      have hcl : c ∈ (pyLower s).data := hch.1
      obtain ⟨d, _, hd⟩ := List.mem_map.mp hcl
      rw [← hd]
      exact toLower_toLower d
    · intro hinf
      have h1 : strContains w "clear" = true := (segIn_iff "clear".data w.data).mpr hinf
      rw [hkeep2] at h1
      exact Bool.false_ne_true h1
  simp only [determine_filter_name]
  cases hofl : (pySplitSemi (pyLower s)).filter (fun filt => !strContains filt "clear") with
  | nil => exact Or.inl rfl
  | cons f rest =>
    rw [hofl] at hfacts
    right
    by_cases hp : strStartsWith f "pol" = true
    · exact ⟨(f :: rest).reverse, fun w hw => hfacts w (List.mem_reverse.mp hw),
        by simp only [if_pos hp]⟩
    · exact ⟨f :: rest, hfacts, by simp only [if_neg hp]⟩

/-- Claim C8: determine_filter_name is idempotent: applying it to its own
output returns that output unchanged. -/
theorem determine_filter_name_idem (s : String) :
    determine_filter_name (determine_filter_name s) = determine_filter_name s := by
  rcases dfn_shape s with h | ⟨out, hmem, hjoin⟩
  · rw [h]
    decide
  · rw [hjoin]
    apply dfn_second_pass
    · intro hsemi
      rcases joinWith_mem out ';' hsemi with h1 | ⟨w, hw, hcw⟩
      · exact absurd h1 (by decide)
      · exact (hmem w hw).1 hcw
    · intro c hc
      rcases joinWith_mem out c hc with h1 | ⟨w, hw, hcw⟩
      · rw [h1]; decide
      · exact (hmem w hw).2.1 c hcw
    · exact not_infix_joinWith "clear".data out (by decide) (by decide)
        (fun w hw => (hmem w hw).2.2)
